import Mathlib

/-!
Verification development for the tacoma temporal-network core:
shallow embedding of the component canonicalizer, the social-trajectory
extractors, the Flockwork-P simulation loop and the SIRS epidemic process,
together with proofs about the claims of the specification.

Machine reals (`double`) are embedded as `ℚ`: every arithmetic operation the
embedded code performs on times and rates (addition, subtraction,
multiplication, division, comparison, floor) is exact on the inputs the
claims concern.  `size_t` arithmetic is embedded as `ℕ` with explicit
`% 2^64` where wrap-around matters.
-/

namespace Tacoma

/-- In-place assignment to index `k` of a vector, as the C++ code performs on
`std::vector`; out-of-range assignment leaves the list unchanged. -/
def listModify (l : List α) (k : ℕ) (f : α → α) : List α :=
  match l, k with
  | [], _ => []
  | a :: r, 0 => f a :: r
  | a :: r, k + 1 => a :: listModify r k f

/-- Decidable equality for `Except`, used to evaluate the embedded
fallible routines on concrete inputs. -/
instance {e a : Type} [DecidableEq e] [DecidableEq a] : DecidableEq (Except e a) := fun x y =>
  match x, y with
  | .ok u, .ok v =>
    if h : u = v then isTrue (by rw [h])
    else isFalse (by intro hc; cases hc; exact h rfl)
  | .error u, .error v =>
    if h : u = v then isTrue (by rw [h])
    else isFalse (by intro hc; cases hc; exact h rfl)
  | .ok _, .error _ => isFalse (by intro hc; cases hc)
  | .error _, .ok _ => isFalse (by intro hc; cases hc)

/-- The normalization `if (v<u) swap(u,v)` applied to a pair, as in
`SIRS::update_network` and the trajectory extractor. -/
def sortPair (e : ℕ × ℕ) : ℕ × ℕ :=
  if e.2 < e.1 then (e.2, e.1) else e

/-- Modelled from the spec: `std::hash<vector<bool>>` (an order-independent
content hash of the membership indicator, assumed collision-free by the spec)
is embedded as the injective binary encoding of the indicator vector. -/
def encodeBits : List Bool → ℕ
  | [] => 0
  | b :: r => (if b then 1 else 0) + 2 * encodeBits r

/-- `vector<bool> this_group(N, false)` followed by `this_group[node] = true`
for every member, as in `get_group_integer`. -/
def buildIndicator (N : ℕ) (component : List ℕ) : List Bool :=
  component.foldl (fun v i => v.set i true) (List.replicate N false)

/-- The hash computed by `get_group_integer` for a membership list. -/
def groupHash (N : ℕ) (component : List ℕ) : ℕ :=
  encodeBits (buildIndicator N component)

/-- `std::map::find` on the hash registry, embedded as first-match lookup in
an insertion-ordered association list. -/
def regFind (h : ℕ) : List (ℕ × ℕ) → Option ℕ
  | [] => none
  | e :: r => if e.1 = h then some e.2 else regFind h r

/-- `get_group_integer` (src/unnamed/part_000, lines 124-151): hash the
membership indicator, return the registered label if the hash is known,
otherwise register the next integer `hash_to_int.size()`.  Returns
`(label, new registry, this_hash)`. -/
def get_group_integer (N : ℕ) (component : List ℕ) (m : List (ℕ × ℕ)) :
    ℕ × List (ℕ × ℕ) × ℕ :=
  let h := groupHash N component
  match regFind h m with
  | some l => (l, m, h)
  | none => (m.length, m ++ [(h, m.length)], h)

/-- Registry state reached from the empty registry: the `i`-th inserted
entry carries label `i`. -/
def regGood (m : List (ℕ × ℕ)) : Prop :=
  ∀ i : ℕ, (h : i < m.length) → (m.get ⟨i, h⟩).2 = i

instance (m : List (ℕ × ℕ)) : Decidable (regGood m) := by
  unfold regGood; infer_instance

/-- A sequence of further canonicalizer calls applied to a registry. -/
def runCalls (N : ℕ) (cs : List (List ℕ)) (m : List (ℕ × ℕ)) : List (ℕ × ℕ) :=
  cs.foldl (fun m c => (get_group_integer N c m).2.1) m

/-! ### Graph helpers

Modelled from the spec: the Graph is an adjacency-set vector over `N` nodes
(`vector<set<size_t>>`), symmetric, mutated by inserting/erasing both
directions of an undirected edge; `graph_from_edgelist` (declared in
`Utilities.h`, not under src/) rebuilds such a graph from an edge list. -/

/-- Neighbor set of node `i` (out-of-range nodes have no neighbors). -/
def nbrsOf (G : List (Finset ℕ)) (i : ℕ) : Finset ℕ :=
  G.getD i ∅

/-- Insert the undirected edge `e` (both directions). -/
def insertEdge (G : List (Finset ℕ)) (e : ℕ × ℕ) : List (Finset ℕ) :=
  listModify (listModify G e.1 (insert e.2)) e.2 (insert e.1)

/-- Erase the undirected edge `e` (both directions). -/
def eraseEdge (G : List (Finset ℕ)) (e : ℕ × ℕ) : List (Finset ℕ) :=
  listModify (listModify G e.1 (.erase · e.2)) e.2 (.erase · e.1)

/-- Modelled from the spec: `graph_from_edgelist` builds the symmetric
adjacency structure over `N` nodes from an edge list. -/
def graphFromEdgelist (N : ℕ) (E : List (ℕ × ℕ)) : List (Finset ℕ) :=
  E.foldl insertEdge (List.replicate N ∅)

/-- One step of component expansion: add all neighbors of current members. -/
def expandOnce (G : List (Finset ℕ)) (s : Finset ℕ) : Finset ℕ :=
  s ∪ s.biUnion (nbrsOf G)

/-- Modelled from the spec: `get_component_of_node` (declared in
`Utilities.h`, not under src/) returns the connected component containing
`node`; embedded as `|G|`-fold neighbor expansion from `{node}`. -/
def componentOfNode (node : ℕ) (G : List (Finset ℕ)) : Finset ℕ :=
  (expandOnce G)^[G.length] {node}

/-! ### SIRS epidemic process (src/_tacoma/SIRS.cpp)

The epidemic state of the `SIRS` object: per-node status, the `infected`
and `recovered` vectors, the materialized `SI_edges` cache, and the graph
the object currently points at.  The observable accumulators
(`R0`, `SI`, `I`, `R`, `time`, `mean_degree`), which no claim refers to,
are not carried. -/

inductive EPI
  | S | I | R
  deriving DecidableEq, Repr

structure SIRSState where
  N : ℕ
  node_status : List EPI
  infected : List ℕ
  recovered : List ℕ
  SI_edges : List (ℕ × ℕ)
  G : List (Finset ℕ)
  deriving DecidableEq

/-- `node_status[i]` (all indexed nodes are below `N` in well-formed states). -/
def statusOf (st : SIRSState) (i : ℕ) : EPI :=
  st.node_status.getD i EPI.S

/-- `SIRS::update_network(G, t)` (SIRS.cpp lines 30-59): point at the new
graph, clear `SI_edges` and refill it by scanning every infected node's
neighbors for susceptibles. -/
def update_network_full (Gn : List (Finset ℕ)) (st : SIRSState) : SIRSState :=
  { st with
    G := Gn
    SI_edges :=
      st.infected.flatMap fun inf =>
        (((Gn.getD inf ∅).sort (· ≤ ·)).filter fun nb => statusOf st nb = EPI.S).map
          fun nb => (inf, nb) }

/-- The `edges_in` loop of the incremental `SIRS::update_network`
(SIRS.cpp lines 99-108): each incoming edge whose endpoints are one
susceptible and one infected contributes an `(infected, susceptible)` pair. -/
def incAdditions (st : SIRSState) (ein : List (ℕ × ℕ)) : List (ℕ × ℕ) :=
  ein.filterMap fun e =>
    if statusOf st e.1 = EPI.S ∧ statusOf st e.2 = EPI.I then some (e.2, e.1)
    else if statusOf st e.2 = EPI.S ∧ statusOf st e.1 = EPI.I then some (e.1, e.2)
    else none

/-- `SIRS::update_network(G, edges_in, edges_out, t)` (SIRS.cpp lines 61-112):
point at the new graph; erase every `SI_edges` entry whose endpoints,
reordered so the smaller id comes first, occur literally in `edges_out`;
then append the pairs contributed by `edges_in`. -/
def update_network_inc (Gn : List (Finset ℕ)) (ein eout : List (ℕ × ℕ))
    (st : SIRSState) : SIRSState :=
  { st with
    G := Gn
    SI_edges :=
      (st.SI_edges.filter fun e => sortPair e ∉ eout) ++ incAdditions st ein }

/-- The bound of `uniform_int_distribution<size_t>(0, SI_edges.size()-1)` in
`SIRS::infection_event`: `size_t` subtraction, which wraps on an empty list. -/
def infection_draw_bound (SI : List (ℕ × ℕ)) : ℕ :=
  (SI.length + (2 ^ 64 - 1)) % 2 ^ 64

/-- `SIRS::infection_event` (SIRS.cpp lines 161-215) with the drawn index `k`
made explicit: promote the susceptible endpoint of `SI_edges[k]`, drop every
cache entry whose susceptible endpoint is that node, and add an entry for
each of its still-susceptible neighbors.  An out-of-range index is an
out-of-bounds vector access in the C++ (undefined), embedded as `none`. -/
def infection_event (k : ℕ) (st : SIRSState) : Option SIRSState :=
  if h : k < st.SI_edges.length then
    let s := (st.SI_edges.get ⟨k, h⟩).2
    let ns' := st.node_status.set s EPI.I
    some { st with
      infected := st.infected ++ [s]
      node_status := ns'
      SI_edges :=
        (st.SI_edges.filter fun e => e.2 ≠ s) ++
          (((st.G.getD s ∅).sort (· ≤ ·)).filter fun nb => ns'.getD nb EPI.S = EPI.S).map
            fun nb => (s, nb) }
  else none

/-- `SIRS::recovery_event` (SIRS.cpp lines 217-267) with the drawn index `k`
made explicit: move `infected[k]` to `recovered`, set its status to `R`, and
drop every cache entry whose infected endpoint is that node. -/
def recovery_event (k : ℕ) (st : SIRSState) : Option SIRSState :=
  if h : k < st.infected.length then
    let i := st.infected.get ⟨k, h⟩
    some { st with
      infected := st.infected.eraseIdx k
      recovered := st.recovered ++ [i]
      node_status := st.node_status.set i EPI.R
      SI_edges := st.SI_edges.filter fun e => e.1 ≠ i }
  else none

/-- `SIRS::susceptible_event` (SIRS.cpp lines 269-293) with the drawn index
`k` made explicit: move `recovered[k]` back to `S` and add a cache entry for
each of its infected neighbors. -/
def susceptible_event (k : ℕ) (st : SIRSState) : Option SIRSState :=
  if h : k < st.recovered.length then
    let r := st.recovered.get ⟨k, h⟩
    let ns' := st.node_status.set r EPI.S
    some { st with
      recovered := st.recovered.eraseIdx k
      node_status := ns'
      SI_edges :=
        st.SI_edges ++
          (((st.G.getD r ∅).sort (· ≤ ·)).filter fun nb => ns'.getD nb EPI.S = EPI.I).map
            fun nb => (nb, r) }
  else none

/-- `SIRS::make_event` (SIRS.cpp lines 144-159): dispatch on the channel
index, throwing only for an index larger than the rate vector. -/
def make_event (event k : ℕ) (st : SIRSState) : Except String (Option SIRSState) :=
  if event = 0 then .ok (infection_event k st)
  else if event = 1 then .ok (recovery_event k st)
  else if event = 2 then .ok (susceptible_event k st)
  else .error "SIRS: chose event larger than rate vector which should not happen."

/-- One mutating operation of a SIRS run: the two `update_network` overloads
and the three epidemic events (with the random draws made explicit). -/
inductive SIRSOp
  | updFull (Gn : List (Finset ℕ))
  | updInc (Gn : List (Finset ℕ)) (ein eout : List (ℕ × ℕ))
  | infect (k : ℕ)
  | recover (k : ℕ)
  | wane (k : ℕ)

/-- Apply one operation to the epidemic state. -/
def applyOp (op : SIRSOp) (st : SIRSState) : Option SIRSState :=
  match op with
  | .updFull Gn => some (update_network_full Gn st)
  | .updInc Gn ein eout => some (update_network_inc Gn ein eout st)
  | .infect k => infection_event k st
  | .recover k => recovery_event k st
  | .wane k => susceptible_event k st

/-- Well-formedness of a graph handed to the SIRS object: `N` adjacency
sets, neighbors in range, symmetric. -/
def graphWF (N : ℕ) (G : List (Finset ℕ)) : Prop :=
  G.length = N ∧
  (∀ i < N, ∀ j ∈ nbrsOf G i, j < N) ∧
  (∀ i < N, ∀ j < N, (j ∈ nbrsOf G i ↔ i ∈ nbrsOf G j))

instance (N : ℕ) (G : List (Finset ℕ)) : Decidable (graphWF N G) := by
  unfold graphWF; infer_instance

/-- Well-formedness of the epidemic state: status/graph vectors sized `N`,
`infected`/`recovered` duplicate-free node lists in range agreeing with
`node_status`, cache entries in range, graph well-formed. -/
def sirsWF (st : SIRSState) : Prop :=
  st.node_status.length = st.N ∧
  (∀ i ∈ st.infected, i < st.N) ∧
  (∀ r ∈ st.recovered, r < st.N) ∧
  st.infected.Nodup ∧
  st.recovered.Nodup ∧
  (∀ i < st.N, (statusOf st i = EPI.I ↔ i ∈ st.infected)) ∧
  (∀ i < st.N, (statusOf st i = EPI.R ↔ i ∈ st.recovered)) ∧
  (∀ e ∈ st.SI_edges, e.1 < st.N ∧ e.2 < st.N) ∧
  graphWF st.N st.G

instance (st : SIRSState) : Decidable (sirsWF st) := by
  unfold sirsWF; infer_instance

/-- The C1 consistency invariant: the maintained `SI_edges` cache holds
exactly the ordered pairs `(i, s)` with `i` infected, `s` susceptible and
`{i, s}` an edge of the current graph. -/
def sirsInv (st : SIRSState) : Prop :=
  ∀ i < st.N, ∀ j < st.N,
    ((i, j) ∈ st.SI_edges ↔
      (statusOf st i = EPI.I ∧ statusOf st j = EPI.S ∧ j ∈ nbrsOf st.G i))

instance (st : SIRSState) : Decidable (sirsInv st) := by
  unfold sirsInv; infer_instance

/-- Validity of an operation's inputs: the graph handed over is well-formed;
for the incremental update, `edges_out` pairs are in ascending order,
`edges_in` pairs are in range, and the new graph is the old one with
`edges_out` removed and `edges_in` added (as unordered edges); the drawn
index of an epidemic event is in range. -/
def opValid (op : SIRSOp) (st : SIRSState) : Prop :=
  match op with
  | .updFull Gn => graphWF st.N Gn
  | .updInc Gn ein eout =>
      graphWF st.N Gn ∧
      (∀ e ∈ eout, e.1 < e.2) ∧
      (∀ e ∈ ein, e.1 < st.N ∧ e.2 < st.N) ∧
      (∀ i < st.N, ∀ j < st.N,
        (j ∈ nbrsOf Gn i ↔
          ((j ∈ nbrsOf st.G i ∧ (i, j) ∉ eout ∧ (j, i) ∉ eout) ∨
            (i, j) ∈ ein ∨ (j, i) ∈ ein)))
  | .infect k => k < st.SI_edges.length
  | .recover k => k < st.infected.length
  | .wane k => k < st.recovered.length

instance (op : SIRSOp) (st : SIRSState) : Decidable (opValid op st) := by
  cases op <;> simp only [opValid]
  case updInc Gn ein eout =>
    haveI hc : Decidable (∀ i < st.N, ∀ j < st.N,
        (j ∈ nbrsOf Gn i ↔
          ((j ∈ nbrsOf st.G i ∧ (i, j) ∉ eout ∧ (j, i) ∉ eout) ∨
            (i, j) ∈ ein ∨ (j, i) ∈ ein))) :=
      Nat.decidableBallLT st.N fun i _ => _
    infer_instance
  all_goals infer_instance

/-! ### Flockwork-P simulation (src/_tacoma/FW_P_varying_alpha_beta.cpp)

The rate-schedule construction loops are embedded as pure functions; the
event loop is embedded with the externally drawn quantities (the Gillespie
`(tau, channel)` draw and the rewiring result, produced by `Events.cpp` and
`Flockwork.cpp`, which are not under src/) supplied as an oracle stream. -/

/-- Rate-schedule construction of `flockwork_alpha_beta_varying_rates`
(lines 90-107): per breakpoint, the channel vector handed to the scheduler
is `[alpha * N, beta * N]`. -/
def build_single_rates_global (recon : List (ℚ × ℚ)) (disc : List ℚ) (N : ℕ) :
    List (ℚ × List ℚ) :=
  (recon.zip disc).map fun p => (p.1.1, [p.1.2 * N, p.2 * N])

/-- Total-rate construction of `flockwork_alpha_beta_varying_rates`
(lines 90-107). -/
def build_total_rate_global (recon : List (ℚ × ℚ)) (disc : List ℚ) (N : ℕ) :
    List (ℚ × ℚ) :=
  (recon.zip disc).map fun p => (p.1.1, p.1.2 * N + p.2 * N)

/-- Rate-schedule construction of
`flockwork_alpha_beta_varying_rates_for_each_node` (lines 223-257): per
breakpoint, the channel vector is the per-node reconnection rates followed
by the per-node disconnection rates, as supplied. -/
def build_single_rates_perNode (recons : List (ℚ × List ℚ))
    (discs : List (List ℚ)) : List (ℚ × List ℚ) :=
  (recons.zip discs).map fun p => (p.1.1, p.1.2 ++ p.2)

/-- Total-rate construction of
`flockwork_alpha_beta_varying_rates_for_each_node` (lines 223-257). -/
def build_total_rate_perNode (recons : List (ℚ × List ℚ))
    (discs : List (List ℚ)) : List (ℚ × ℚ) :=
  (recons.zip discs).map fun p => (p.1.1, p.1.2.sum + p.2.sum)

/-- The rate handover the specification describes, for the per-node variant:
every supplied per-channel rate multiplied by `N`. -/
def spec_scaled_single_rates_perNode (recons : List (ℚ × List ℚ))
    (discs : List (List ℚ)) (N : ℕ) : List (ℚ × List ℚ) :=
  (recons.zip discs).map fun p => (p.1.1, (p.1.2 ++ p.2).map (· * N))

/-- One oracle step of the Flockwork-P event loop: the Gillespie draw
`(tau, channel)` and the `(edges_removed, edges_added)` pair the rewiring
call would return. -/
structure FWStep where
  tau : ℚ
  channel : ℕ
  diff : List (ℕ × ℕ) × List (ℕ × ℕ)
  deriving DecidableEq

/-- The accumulated output arrays `(time, edges_out, edges_in)` of a
Flockwork-P run. -/
structure FWAcc where
  time : List ℚ
  edges_out : List (List (ℕ × ℕ))
  edges_in : List (List (ℕ × ℕ))
  deriving DecidableEq

/-- The `while (t < t_run_total)` event loop shared by every
`flockwork_alpha_beta_*` variant (e.g. lines 109-165): advance `t` by the
drawn `tau`; if still inside the run, a valid channel leads to a rewiring
whose diff is appended to the output arrays only when non-empty, and an
invalid channel throws; `validCh` is the channel test of the variant
(`event == 1 or event == 2` for the global variants, `0 < channel < 2N+1`
for the per-node variants). -/
def fw_run (validCh : ℕ → Bool) (t_run_total : ℚ) :
    List FWStep → ℚ → FWAcc → Except String FWAcc
  | steps, t, acc =>
    if t_run_total ≤ t then .ok acc
    else
      match steps with
      | [] => .ok acc
      | s :: rest =>
        let t' := t + s.tau
        if t' < t_run_total then
          if validCh s.channel then
            if s.diff.1 ≠ [] ∨ s.diff.2 ≠ [] then
              fw_run validCh t_run_total rest t'
                ⟨acc.time ++ [t'], acc.edges_out ++ [s.diff.1],
                  acc.edges_in ++ [s.diff.2]⟩
            else fw_run validCh t_run_total rest t' acc
          else
            .error "There was an event chosen other than rewiring, this should not happen."
        else fw_run validCh t_run_total rest t' acc

/-- The channel test of the global-rate variants (lines 139, 430). -/
def validChGlobal (c : ℕ) : Bool := c = 1 || c = 2

/-- The channel test of the per-node variants (lines 293, 596). -/
def validChPerNode (N c : ℕ) : Bool := 0 < c && c < 2 * N + 1

/-- The `edge_changes` record returned by the simulation variants. -/
structure EdgeChangesRec where
  N : ℕ
  t0 : ℚ
  tmax : ℚ
  edges_initial : List (ℕ × ℕ)
  t : List ℚ
  edges_in : List (List (ℕ × ℕ))
  edges_out : List (List (ℕ × ℕ))
  deriving DecidableEq

/-- A whole Flockwork-P simulation run (any variant, selected by `validCh`):
run the event loop from the first breakpoint time and package the result
record exactly as lines 167-177 do (`t0 = 0`, `tmax = t_run_total`,
`edges_initial = E`). -/
def flockwork_run (validCh : ℕ → Bool) (E : List (ℕ × ℕ)) (N : ℕ)
    (steps : List FWStep) (t_start t_run_total : ℚ) :
    Except String EdgeChangesRec :=
  (fw_run validCh t_run_total steps t_start ⟨[], [], []⟩).map fun acc =>
    { N := N
      t0 := 0
      tmax := t_run_total
      edges_initial := E
      t := acc.time
      edges_in := acc.edges_in
      edges_out := acc.edges_out }

/-! ### Social-trajectory extraction (src/unnamed/part_000) -/

/-- One group entry of a social trajectory: component size, content hash,
and the list of membership intervals. -/
structure SocialTrajectoryEntry where
  size : ℕ
  hash : ℕ
  time_pairs : List (ℚ × ℚ)
  deriving DecidableEq

/-- The emission block of `social_trajectory_from_edge_changes`
(lines 556-571 and 592-608): resolve the component's label, append a fresh
entry when the label equals the current trajectory length, and push the
interval pair onto that label's `time_pairs`. -/
def emitPair (N : ℕ) (comp : Finset ℕ) (pr : ℚ × ℚ) (m : List (ℕ × ℕ))
    (traj : List SocialTrajectoryEntry) :
    List (ℕ × ℕ) × List SocialTrajectoryEntry :=
  let r := get_group_integer N (comp.sort (· ≤ ·)) m
  let traj1 :=
    if r.1 = traj.length then traj ++ [⟨comp.card, r.2.2, []⟩] else traj
  (r.2.1,
    listModify traj1 r.1 fun en => { en with time_pairs := en.time_pairs ++ [pr] })

/-- Graph mutation of one diff event in `social_trajectory_from_edge_changes`
(lines 510-528): erase the outgoing edges first, then insert the incoming
ones (each pair swapped to ascending order first, which the symmetric
erase/insert makes immaterial). -/
def applyEvSoc (G : List (Finset ℕ)) (ein eout : List (ℕ × ℕ)) :
    List (Finset ℕ) :=
  ein.foldl (fun g e => insertEdge g (sortPair e))
    (eout.foldl (fun g e => eraseEdge g (sortPair e)) G)

/-- The event loop of `social_trajectory_from_edge_changes` (lines 502-611):
per event, mutate the graph, recompute the focal node's component, close the
previous label's interval when the component changed (and had size `> 1` and
`t > t0`), and after the last event close the final open interval at
`tmax`. -/
def soc_loop (N node : ℕ) (t0 tmax : ℚ) :
    List (ℚ × List (ℕ × ℕ) × List (ℕ × ℕ)) → List (Finset ℕ) → Finset ℕ →
    ℚ → List (ℕ × ℕ) → List SocialTrajectoryEntry → List SocialTrajectoryEntry
  | [], _, _, _, _, traj => traj
  | (t, ein, eout) :: rest, G, old_comp, last, m, traj =>
    let G' := applyEvSoc G ein eout
    let new_comp := componentOfNode node G'
    let changed := old_comp ≠ new_comp
    let p1 :=
      if 1 < old_comp.card ∧ changed ∧ t0 < t then
        emitPair N old_comp (last, t) m traj
      else (m, traj)
    let last1 := if changed then t else last
    if rest.isEmpty then
      if 1 < new_comp.card then (emitPair N new_comp (last1, tmax) p1.1 p1.2).2
      else p1.2
    else soc_loop N node t0 tmax rest G' new_comp last1 p1.1 p1.2

/-- `social_trajectory_from_edge_changes` (lines 449-615): build the initial
graph, reject `tmax` below the last event time, then run the event loop
from the initial component with `last_time_active = t0`.  (`time.back()` on
an empty stream is undefined in the C++; the empty case is embedded as
passing the check.) -/
def social_trajectory_from_edge_changes (ec : EdgeChangesRec) (node : ℕ) :
    Except String (List SocialTrajectoryEntry) :=
  let G := graphFromEdgelist ec.N ec.edges_initial
  let run : List SocialTrajectoryEntry :=
    soc_loop ec.N node ec.t0 ec.tmax (ec.t.zip (ec.edges_in.zip ec.edges_out))
      G (componentOfNode node G) ec.t0 [] []
  match ec.t.getLast? with
  | some tl =>
    if ec.tmax < tl then
      .error "The value tmax is smaller than the last time in the time list."
    else .ok run
  | none => .ok run

/-- All interval pairs of a trajectory, across every label. -/
def pairsOf (traj : List SocialTrajectoryEntry) : List (ℚ × ℚ) :=
  traj.flatMap (·.time_pairs)

/-- Consecutive pairs of a cut list. -/
def chainPairs : List ℚ → List (ℚ × ℚ)
  | a :: b :: r => (a, b) :: chainPairs (b :: r)
  | _ => []

/-- The collection `P` of intervals exactly tiles `[a, b]`: it consists of
the consecutive pairs of a strictly increasing cut list from `a` to `b` —
so the intervals cover `[a, b]` with no gaps and no overlaps. -/
def tilesFromTo (P : Multiset (ℚ × ℚ)) (a b : ℚ) : Prop :=
  ∃ c : List ℚ,
    c.Chain' (· < ·) ∧ c.head? = some a ∧ c.getLast? = some b ∧
      P = ↑(chainPairs c)

/-- The focal node's components after each successive event of the stream
(with the interval-mode graph mutation). -/
def compsAlong (node : ℕ) :
    List (Finset ℕ) → List (ℚ × List (ℕ × ℕ) × List (ℕ × ℕ)) → List (Finset ℕ)
  | _, [] => []
  | G, (_, ein, eout) :: rest =>
    let G' := applyEvSoc G ein eout
    componentOfNode node G' :: compsAlong node G' rest

/-! ### Binned social-trajectory extraction (src/unnamed/part_000) -/

/-- The bin-advancing inner loop
(`for(bin = 1; bin <= bin_difference; bin++)`, lines 373-391 of the
diff-stream variant and 228-236 of the snapshot variant): step the bin
cursor `bd` times and, when `cond` holds (the focal node currently has
neighbors, the event time lies strictly before the start of its own bin,
and the current label is below the registry size), insert the current label
into each bin stepped into. -/
def advanceBins (cond : Bool) (cgi : ℕ) :
    ℕ → ℕ → List (Finset ℕ) → ℕ × List (Finset ℕ)
  | 0, cur, traj => (cur, traj)
  | b + 1, cur, traj =>
    let cur' := cur + 1
    let traj' := if cond then listModify traj cur' (insert cgi) else traj
    advanceBins cond cgi b cur' traj'

/-- Graph mutation of one diff event in
`binned_social_trajectory_from_edge_changes` (lines 400-414): insert the
incoming edges first, then erase the outgoing ones. -/
def applyEvBinned (G : List (Finset ℕ)) (ein eout : List (ℕ × ℕ)) :
    List (Finset ℕ) :=
  eout.foldl eraseEdge (ein.foldl insertEdge G)

/-- The event loop of `binned_social_trajectory_from_edge_changes`
(lines 358-444): per event, compute the event's bin
`floor((t - t0)/(tmax - t0) * N_time_steps)`, advance the bin cursor with
`advanceBins`, mutate the graph, and when the focal node has neighbors
insert its component's label into the cursor's bin. -/
def binned_loop (N node : ℕ) (t0 tmax dt : ℚ) (Nt : ℕ) :
    List (ℚ × List (ℕ × ℕ) × List (ℕ × ℕ)) → List (Finset ℕ) → ℕ → ℕ → ℕ →
    List (ℕ × ℕ) → List (Finset ℕ) → List (Finset ℕ)
  | [], _, _, _, _, _, traj => traj
  | (t, ein, eout) :: rest, G, cur, old_bin, cgi, m, traj =>
    let bn := ⌊(t - t0) / (tmax - t0) * Nt⌋₊
    let bd := bn - old_bin
    let cond : Bool :=
      decide (0 < (G.getD node ∅).card ∧ t < t0 + bn * dt ∧ cgi < m.length)
    let a := advanceBins cond cgi bd cur traj
    let G' := applyEvBinned G ein eout
    if 0 < (G'.getD node ∅).card then
      let comp := componentOfNode node G'
      let r := get_group_integer N (comp.sort (· ≤ ·)) m
      binned_loop N node t0 tmax dt Nt rest G' a.1 bn r.1 r.2.1
        (listModify a.2 a.1 (insert r.1))
    else binned_loop N node t0 tmax dt Nt rest G' a.1 bn cgi m a.2

/-- The `dt` / `N_time_steps` validation shared by both binned variants
(lines 175-192 and 307-324), in source order: both positive or both zero is
a configuration error; positive `dt` alone must divide the interval exactly
(`modf` fractional-part test) and determines `N_time_steps`; positive
`N_time_steps` alone determines `dt`; any other combination (in particular
a negative `dt`) falls through every branch unchanged. -/
def resolveBinConfig (t0 tmax dt : ℚ) (Nt : ℕ) : Except String (ℚ × ℕ) :=
  if 0 < dt ∧ 0 < Nt then
    .error "please provide either positive dt or positive N_time_steps, not both positive"
  else if dt = 0 ∧ Nt = 0 then
    .error "please provide either positive dt or positive N_time_steps, not both zero"
  else if 0 < dt ∧ Nt = 0 then
    let q := (tmax - t0) / dt
    if q.den = 1 then .ok (dt, q.num.toNat)
    else .error "dt does not nicely divide time interval (tmax - t0) in integer parts"
  else if dt = 0 ∧ 0 < Nt then .ok ((tmax - t0) / Nt, Nt)
  else .ok (dt, Nt)

/-- `binned_social_trajectory_from_edge_changes` (lines 284-447): build the
initial graph, validate the bin configuration, seed bin `0` with the focal
node's initial label when it has neighbors, reject `tmax` below the last
event time, then run the binned event loop.  (`time.back()` on an empty
stream is undefined in the C++; the empty case is embedded as passing the
check.) -/
def binned_social_trajectory_from_edge_changes (ec : EdgeChangesRec)
    (node : ℕ) (dt : ℚ) (Nt : ℕ) : Except String (List (Finset ℕ)) :=
  let G := graphFromEdgelist ec.N ec.edges_initial
  match resolveBinConfig ec.t0 ec.tmax dt Nt with
  | .error e => .error e
  | .ok (dt, Nt) =>
    let init : ℕ × List (ℕ × ℕ) × List (Finset ℕ) :=
      if 0 < (G.getD node ∅).card then
        let comp := componentOfNode node G
        let r := get_group_integer ec.N (comp.sort (· ≤ ·)) []
        (r.1, r.2.1, listModify (List.replicate Nt (∅ : Finset ℕ)) 0 (insert r.1))
      else (1, [], List.replicate Nt ∅)
    let run : List (Finset ℕ) :=
      binned_loop ec.N node ec.t0 ec.tmax dt Nt
        (ec.t.zip (ec.edges_in.zip ec.edges_out)) G 0 0 init.1 init.2.1 init.2.2
    match ec.t.getLast? with
    | some tl =>
      if ec.tmax < tl then
        .error "The value tmax is smaller than the last value in the time list."
      else .ok run
    | none => .ok run

/-- The snapshot stream record (`edge_lists`). -/
structure EdgeListsRec where
  N : ℕ
  tmax : ℚ
  t : List ℚ
  edges : List (List (ℕ × ℕ))
  deriving DecidableEq

/-- The event loop of `binned_social_trajectory_from_edge_lists`
(lines 213-279): as the diff-stream loop, but each event replaces the graph
wholesale with the snapshot's edge list. -/
def binnedEL_loop (N node : ℕ) (t0 tmax dt : ℚ) (Nt : ℕ) :
    List (ℚ × List (ℕ × ℕ)) → List (Finset ℕ) → ℕ → ℕ → ℕ →
    List (ℕ × ℕ) → List (Finset ℕ) → List (Finset ℕ)
  | [], _, _, _, _, _, traj => traj
  | (t, edges) :: rest, G, cur, old_bin, cgi, m, traj =>
    let bn := ⌊(t - t0) / (tmax - t0) * Nt⌋₊
    let bd := bn - old_bin
    let cond : Bool :=
      decide (0 < (G.getD node ∅).card ∧ t < t0 + bn * dt ∧ cgi < m.length)
    let a := advanceBins cond cgi bd cur traj
    let G' := graphFromEdgelist N edges
    if 0 < (G'.getD node ∅).card then
      let comp := componentOfNode node G'
      let r := get_group_integer N (comp.sort (· ≤ ·)) m
      binnedEL_loop N node t0 tmax dt Nt rest G' a.1 bn r.1 r.2.1
        (listModify a.2 a.1 (insert r.1))
    else binnedEL_loop N node t0 tmax dt Nt rest G' a.1 bn cgi m a.2

/-- `binned_social_trajectory_from_edge_lists` (lines 153-282): reject
`tmax` below the last sample time, validate the bin configuration, then run
the binned loop on an initially empty graph.  (`time[0]` and `time.back()`
on an empty stream are undefined in the C++; they are embedded with
defaults.) -/
def binned_social_trajectory_from_edge_lists (el : EdgeListsRec) (node : ℕ)
    (dt : ℚ) (Nt : ℕ) : Except String (List (Finset ℕ)) :=
  let t0 := el.t.headD 0
  if el.tmax < el.t.getLastD 0 then
    .error "The value tmax is smaller than the last value in the time list."
  else
    match resolveBinConfig t0 el.tmax dt Nt with
    | .error e => .error e
    | .ok (dt, Nt) =>
      .ok (binnedEL_loop el.N node t0 el.tmax dt Nt (el.t.zip el.edges)
        (List.replicate el.N ∅) 0 0 1 [] (List.replicate Nt ∅))

/-! ### Concrete instances used by counterexamples and witnesses -/

/-- The N=4 example stream of the specification: initial edges
`{(0,1),(2,3)}`, one diff event at `t = 1` adding edge `(1,2)`,
`t0 = 0`, `tmax = 2`. -/
def ec3ex : EdgeChangesRec :=
  { N := 4, t0 := 0, tmax := 2, edges_initial := [(0, 1), (2, 3)],
    t := [1], edges_in := [[(1, 2)]], edges_out := [[]] }

/-- The trajectory the interval extractor produces on `ec3ex` for focal
node `0`: label 0 (component `{0,1}`, hash 3) active on `(0, 1)`, then
label 1 (component `{0,1,2,3}`, hash 15) active on `(1, 2)`. -/
def trajC3 : List SocialTrajectoryEntry :=
  [⟨2, 3, [(0, 1)]⟩, ⟨4, 15, [(1, 2)]⟩]

/-- A stream with an event-free gap spanning whole bins: `N = 2`, edge
`(0,1)` present from `t0 = 0` until its removal at `t = 7/2`,
`tmax = 4`; with four bins the component `{0,1}` fully spans bins 1
and 2. -/
def ec6ex : EdgeChangesRec :=
  { N := 2, t0 := 0, tmax := 4, edges_initial := [(0, 1)],
    t := [7/2], edges_in := [[]], edges_out := [[(0, 1)]] }

/-- A well-formed stream whose focal node `0` is isolated throughout;
used to exercise the validation path alone. -/
def ec7ex : EdgeChangesRec :=
  { N := 3, t0 := 0, tmax := 2, edges_initial := [],
    t := [1], edges_in := [[(1, 2)]], edges_out := [[]] }

/-- A well-formed snapshot stream used to exercise the validation path of
the snapshot-variant binned extractor. -/
def el7ex : EdgeListsRec :=
  { N := 2, tmax := 2, t := [1], edges := [[]] }

/-- A SIRS state about to attempt an infection event with an empty
`SI_edges` cache: one infected, isolated node. -/
def stC5 : SIRSState :=
  { N := 1, node_status := [EPI.I], infected := [0], recovered := [],
    SI_edges := [], G := [∅] }

/-- A consistent SIRS state (node 1 infected, node 0 susceptible, edge
`{0,1}` present) about to receive an incremental network update whose
`edges_out` lists the removed edge with the larger id first. -/
def stC1cex : SIRSState :=
  { N := 2, node_status := [EPI.S, EPI.I], infected := [1], recovered := [],
    SI_edges := [(1, 0)], G := [{1}, {0}] }

/-- The state `infection_event 0` produces from `stC1cex`. -/
def stC1res : SIRSState :=
  { N := 2, node_status := [EPI.I, EPI.I], infected := [1, 0], recovered := [],
    SI_edges := [], G := [{1}, {0}] }

/-- A one-event oracle stream for the Flockwork-P loop: one reconnection
at `tau = 1` adding edge `(0,1)`. -/
def fwStepsW : List FWStep := [⟨1, 1, ([], [(0, 1)])⟩]

/-- The record `flockwork_run validChGlobal [] 2 fwStepsW 0 2` returns. -/
def fwResW : EdgeChangesRec :=
  { N := 2, t0 := 0, tmax := 2, edges_initial := [],
    t := [1], edges_in := [[(0, 1)]], edges_out := [[]] }

/-! ## Theorems -/

/-- C5: the claim says an infection event attempted with empty `SI_edges`
fails fast as a fatal error; the code instead computes the uniform draw
bound `SI_edges.size() - 1` in `size_t` arithmetic, which on the empty
cache wraps to `2^64 - 1`, and proceeds to an out-of-bounds vector access
(undefined behavior, embedded as `none`) — `make_event` raises no error on
this path (it only guards channel indices `≥ 3`). -/
theorem infection_event_empty_cache_not_guarded :
    infection_draw_bound [] = 2 ^ 64 - 1 ∧
      make_event 0 0 stC5 = .ok none := by
  constructor
  · rfl
  · rfl

/-- C6: evaluated on `ec6ex` (component `{0,1}` of focal node `0` alive on
`[0, 7/2)`, four bins of width 1), the binned extractor leaves bins 1-3
empty — the guard `t0 + bin_number * dt > this_time` is never satisfied,
so fully spanned bins receive no label — while the claim requires every
bin the node spends inside the labeled component to contain label 0. -/
theorem binned_spanned_bins_left_empty :
    binned_social_trajectory_from_edge_changes ec6ex 0 0 4 =
      .ok [{0}, ∅, ∅, ∅] ∧
      ([{0}, ∅, ∅, ∅] : List (Finset ℕ)) ≠ [{0}, {0}, {0}, {0}] := by
  refine ⟨by with_unfolding_all rfl, by decide⟩

/-- C7 counterexample: with `dt = -1` and `N_time_steps = 0` neither
parameter is positive, yet the binned extractor raises no configuration
error — every validation branch tests `dt > 0` or `dt == 0`, so a negative
`dt` falls through and the call succeeds. -/
theorem binned_negative_dt_escapes_validation :
    binned_social_trajectory_from_edge_changes ec7ex 0 (-1) 0 = .ok [] := by
  with_unfolding_all rfl

/-- C2 counterexample: in the per-node variant the channel rates handed to
the scheduler are not the supplied rates multiplied by `N`: for `N = 2`
and per-node reconnection rates `[1, 0]`, the built channel vector is
`[1, 0, 0, 0]`, not the `N`-scaled `[2, 0, 0, 0]`. -/
theorem perNode_rates_not_scaled :
    build_single_rates_perNode [(0, [1, 0])] [[0, 0]] ≠
      spec_scaled_single_rates_perNode [(0, [1, 0])] [[0, 0]] 2 := by
  with_unfolding_all decide

/-- C2 (amended): per breakpoint, the global-rate variants hand the
scheduler the channel vector `[alpha * N, beta * N]` with total
`alpha * N + beta * N`, while the per-node variants hand it the supplied
per-node reconnection rates followed by the supplied per-node
disconnection rates, unscaled, with total their plain sum. -/
theorem rates_handed_to_scheduler (recon : List (ℚ × ℚ)) (disc : List ℚ)
    (recons : List (ℚ × List ℚ)) (discs : List (List ℚ)) (N : ℕ) (i j : ℕ)
    (t tj : ℚ) (a b : ℚ) (av bv : List ℚ)
    (h1 : recon[i]? = some (t, a)) (h2 : disc[i]? = some b)
    (h3 : recons[j]? = some (tj, av)) (h4 : discs[j]? = some bv) :
    (build_single_rates_global recon disc N)[i]? = some (t, [a * N, b * N]) ∧
    (build_total_rate_global recon disc N)[i]? = some (t, a * N + b * N) ∧
    (build_single_rates_perNode recons discs)[j]? = some (tj, av ++ bv) ∧
    (build_total_rate_perNode recons discs)[j]? = some (tj, av.sum + bv.sum) := by
  have hz1 : (recon.zip disc)[i]? = some ((t, a), b) :=
    List.getElem?_zip_eq_some.mpr ⟨h1, h2⟩
  have hz2 : (recons.zip discs)[j]? = some ((tj, av), bv) :=
    List.getElem?_zip_eq_some.mpr ⟨h3, h4⟩
  refine ⟨?_, ?_, ?_, ?_⟩ <;>
    simp [build_single_rates_global, build_total_rate_global,
      build_single_rates_perNode, build_total_rate_perNode, hz1, hz2]

/-- C2 witness instantiation of `rates_handed_to_scheduler`. -/
theorem rates_handed_to_scheduler_witness :
    (build_single_rates_global [(0, 3)] [5] 2)[0]? = some (0, [3 * 2, 5 * 2]) ∧
    (build_total_rate_global [(0, 3)] [5] 2)[0]? = some (0, 3 * 2 + 5 * 2) ∧
    (build_single_rates_perNode [(0, [1, 0])] [[0, 0]])[0]? =
      some (0, [1, 0] ++ [0, 0]) ∧
    (build_total_rate_perNode [(0, [1, 0])] [[0, 0]])[0]? =
      some (0, [(1 : ℚ), 0].sum + [(0 : ℚ), 0].sum) :=
  rates_handed_to_scheduler [(0, 3)] [5] [(0, [1, 0])] [[0, 0]] 2 0 0
    0 0 3 5 [1, 0] [0, 0] (by with_unfolding_all rfl) (by with_unfolding_all rfl)
    (by with_unfolding_all rfl) (by with_unfolding_all rfl)

/-- C10: the incremental `SIRS::update_network` keeps a pre-existing
`SI_edges` entry exactly when its sorted form does not occur literally in
`edges_out` (and appends the `edges_in` contributions); consequently an
edge deletion listed with the larger id first never matches: if the
ascending form `(v, u)` is absent from `edges_out`, the cache entries of
that edge survive no matter how the deletion was listed. -/
theorem update_network_inc_removal_matches_sorted_pairs (st : SIRSState)
    (Gn : List (Finset ℕ)) (ein eout : List (ℕ × ℕ)) :
    (∀ e : ℕ × ℕ,
      (e ∈ (update_network_inc Gn ein eout st).SI_edges ↔
        ((e ∈ st.SI_edges ∧ sortPair e ∉ eout) ∨ e ∈ incAdditions st ein))) ∧
    (∀ u v : ℕ, v < u → (v, u) ∉ eout → ∀ e ∈ st.SI_edges,
      e = (u, v) ∨ e = (v, u) →
        e ∈ (update_network_inc Gn ein eout st).SI_edges) := by
  have hmem : ∀ e : ℕ × ℕ,
      (e ∈ (update_network_inc Gn ein eout st).SI_edges ↔
        ((e ∈ st.SI_edges ∧ sortPair e ∉ eout) ∨ e ∈ incAdditions st ein)) := by
    intro e
    simp [update_network_inc, List.mem_filter]
  refine ⟨hmem, ?_⟩
  rintro u v hvu hnot e he (rfl | rfl)
  · exact (hmem (u, v)).mpr (Or.inl ⟨he, by simp [sortPair, hvu, hnot]⟩)
  · exact (hmem (v, u)).mpr (Or.inl ⟨he, by simp [sortPair, Nat.not_lt.mpr hvu.le, hnot]⟩)

/-- C10 witness: in `stC1cex` the cache entry `(1, 0)` survives an
`edges_out` listing `(1, 0)` (larger id first), by
`update_network_inc_removal_matches_sorted_pairs`. -/
theorem update_network_inc_removal_witness :
    (1, 0) ∈ (update_network_inc [∅, ∅] [] [(1, 0)] stC1cex).SI_edges :=
  (update_network_inc_removal_matches_sorted_pairs stC1cex [∅, ∅] [] [(1, 0)]).2
    1 0 (by decide) (by decide) (1, 0) (by decide) (Or.inl rfl)

/-- C8: consuming one scheduled event whose rewiring diff is empty on both
sides advances the loop past it (simulated time moves to `t + tau`) without
appending anything to the output arrays and without raising an error; and
an in-time valid event with a non-empty diff appends exactly one
`(t + tau, edges_removed, edges_added)` entry. -/
theorem fw_noop_event_consumed_without_entry (validCh : ℕ → Bool)
    (t_run : ℚ) (s : FWStep) (rest : List FWStep) (t : ℚ) (acc : FWAcc)
    (ht : t < t_run) (hch : validCh s.channel = true) (hd : s.diff = ([], [])) :
    fw_run validCh t_run (s :: rest) t acc =
      fw_run validCh t_run rest (t + s.tau) acc ∧
    (∀ s' : FWStep, validCh s'.channel = true → t + s'.tau < t_run →
      s'.diff.1 ≠ [] ∨ s'.diff.2 ≠ [] →
      fw_run validCh t_run (s' :: rest) t acc =
        fw_run validCh t_run rest (t + s'.tau)
          ⟨acc.time ++ [t + s'.tau], acc.edges_out ++ [s'.diff.1],
            acc.edges_in ++ [s'.diff.2]⟩) := by
  constructor
  · by_cases ht' : t + s.tau < t_run
    · simp [fw_run, not_le.mpr ht, ht', hch, hd]
    · simp [fw_run, not_le.mpr ht, ht']
  · intro s' hch' ht' hne
    simp [fw_run, not_le.mpr ht, ht', hch', hne]

/-- C8 witness instantiation of `fw_noop_event_consumed_without_entry`
(a disconnection event on an already-isolated node: empty diff). -/
theorem fw_noop_event_witness :
    fw_run validChGlobal 2 [⟨1, 2, ([], [])⟩] 0 ⟨[], [], []⟩ =
      fw_run validChGlobal 2 [] (0 + (1 : ℚ)) ⟨[], [], []⟩ :=
  (fw_noop_event_consumed_without_entry validChGlobal 2 ⟨1, 2, ([], [])⟩ []
    0 ⟨[], [], []⟩ (by norm_num) (by decide) rfl).1

/-- Invariant-carrying form of C9 over the event loop: if every drawn
waiting time is positive, the accumulated time list stays strictly
increasing, bounded by the current time, and strictly below
`t_run_total`. -/
theorem fw_run_time_mono (validCh : ℕ → Bool) (t_run : ℚ) :
    ∀ (steps : List FWStep) (t : ℚ) (acc res : FWAcc),
      (∀ s ∈ steps, 0 < s.tau) →
      acc.time.Chain' (· < ·) →
      (∀ x ∈ acc.time, x ≤ t ∧ x < t_run) →
      fw_run validCh t_run steps t acc = .ok res →
      res.time.Chain' (· < ·) ∧ ∀ x ∈ res.time, x < t_run := by
  intro steps
  induction steps with
  | nil =>
    intro t acc res _ hch hbd hrun
    rw [fw_run] at hrun
    have hacc : acc = res := by
      by_cases hle : t_run ≤ t <;> simp [hle] at hrun <;> exact hrun
    exact hacc ▸ ⟨hch, fun x hx => (hbd x hx).2⟩
  | cons s rest ih =>
    intro t acc res hτ hch hbd hrun
    rw [fw_run] at hrun
    by_cases hle : t_run ≤ t
    · simp [hle] at hrun
      exact hrun ▸ ⟨hch, fun x hx => (hbd x hx).2⟩
    · simp only [if_neg hle] at hrun
      have hτs : 0 < s.tau := hτ s (List.mem_cons_self s rest)
      have hτr : ∀ x ∈ rest, 0 < x.tau := fun x hx => hτ x (List.mem_cons_of_mem s hx)
      have htlt : t < t + s.tau := by linarith
      by_cases hin : t + s.tau < t_run
      · simp only [if_pos hin] at hrun
        by_cases hvc : validCh s.channel
        · simp only [hvc, if_pos] at hrun
          by_cases hne : s.diff.1 ≠ [] ∨ s.diff.2 ≠ []
          · simp only [if_pos hne] at hrun
            refine ih (t + s.tau) _ res hτr ?_ ?_ hrun
            · refine List.Chain'.append hch (List.chain'_singleton _) ?_
              intro x hx y hy
              simp only [List.head?_cons, Option.mem_def, Option.some.injEq] at hy
              subst hy
              obtain ⟨hne', rfl⟩ := List.mem_getLast?_eq_getLast hx
              have := hbd _ (List.getLast_mem hne')
              linarith [this.1]
            · intro x hx
              simp only [List.mem_append, List.mem_singleton] at hx
              rcases hx with hx | rfl
              · have := hbd x hx
                exact ⟨by linarith [this.1], this.2⟩
              · exact ⟨le_refl _, hin⟩
          · simp only [if_neg hne] at hrun
            refine ih (t + s.tau) acc res hτr hch ?_ hrun
            intro x hx
            have := hbd x hx
            exact ⟨by linarith [this.1], this.2⟩
        · simp [hvc] at hrun
      · simp only [if_neg hin] at hrun
        refine ih (t + s.tau) acc res hτr hch ?_ hrun
        intro x hx
        have := hbd x hx
        exact ⟨by linarith [this.1], this.2⟩

/-- C9: every Flockwork-P variant (any channel test) returns a record with
`t0 = 0`, `tmax = t_run_total`, the supplied `N` and initial edge list, and
— when every drawn waiting time is positive, as the exponential draws of
the scheduler are — a strictly increasing time sequence whose entries all
lie strictly below `tmax = t_run_total`. -/
theorem flockwork_run_record_shape (validCh : ℕ → Bool) (E : List (ℕ × ℕ))
    (N : ℕ) (steps : List FWStep) (t_start t_run : ℚ) (res : EdgeChangesRec)
    (hτ : ∀ s ∈ steps, 0 < s.tau)
    (hres : flockwork_run validCh E N steps t_start t_run = .ok res) :
    res.t0 = 0 ∧ res.tmax = t_run ∧ res.N = N ∧ res.edges_initial = E ∧
      res.t.Chain' (· < ·) ∧ ∀ x ∈ res.t, x < res.tmax := by
  unfold flockwork_run at hres
  cases hacc : fw_run validCh t_run steps t_start ⟨[], [], []⟩ with
  | error e => rw [hacc] at hres; exact absurd hres (by simp [Except.map])
  | ok acc =>
    rw [hacc] at hres
    simp only [Except.map, Except.ok.injEq] at hres
    have hmono := fw_run_time_mono validCh t_run steps t_start ⟨[], [], []⟩ acc
      hτ (List.chain'_nil) (by simp) hacc
    subst hres
    exact ⟨rfl, rfl, rfl, rfl, hmono.1, fun x hx => hmono.2 x hx⟩

/-- C9 witness instantiation of `flockwork_run_record_shape` on the
one-event oracle stream `fwStepsW`. -/
theorem flockwork_run_record_shape_witness :
    fwResW.t0 = 0 ∧ fwResW.tmax = 2 ∧ fwResW.N = 2 ∧
      fwResW.edges_initial = [] ∧ fwResW.t.Chain' (· < ·) ∧
      ∀ x ∈ fwResW.t, x < fwResW.tmax :=
  flockwork_run_record_shape validChGlobal [] 2 fwStepsW 0 2 fwResW
    (by intro s hs; simp [fwStepsW] at hs; subst hs; norm_num)
    (by with_unfolding_all rfl)

/-- C7 (amended): both binned extractors reject with a configuration error
when `dt` and `N_time_steps` are both positive, when both are zero, and
when a positive `dt` with `N_time_steps = 0` does not evenly divide
`tmax - t0` — always before any registry state is created (the error is
returned with no output; in the diff-stream variant only the local initial
graph is built first, and in the snapshot variant the ordering check runs
first, whence its hypothesis).  A negative `dt` is not covered: it
bypasses the validation (see `binned_negative_dt_escapes_validation`). -/
theorem binned_config_rejected (ec : EdgeChangesRec) (el : EdgeListsRec)
    (node nodeL : ℕ) (dt dtL : ℚ) (Nt NtL : ℕ)
    (hord : ¬ el.tmax < el.t.getLastD 0) :
    (0 < dt → 0 < Nt →
      binned_social_trajectory_from_edge_changes ec node dt Nt =
        .error "please provide either positive dt or positive N_time_steps, not both positive") ∧
    (dt = 0 → Nt = 0 →
      binned_social_trajectory_from_edge_changes ec node dt Nt =
        .error "please provide either positive dt or positive N_time_steps, not both zero") ∧
    (0 < dt → Nt = 0 → ((ec.tmax - ec.t0) / dt).den ≠ 1 →
      binned_social_trajectory_from_edge_changes ec node dt Nt =
        .error "dt does not nicely divide time interval (tmax - t0) in integer parts") ∧
    (0 < dtL → 0 < NtL →
      binned_social_trajectory_from_edge_lists el nodeL dtL NtL =
        .error "please provide either positive dt or positive N_time_steps, not both positive") ∧
    (dtL = 0 → NtL = 0 →
      binned_social_trajectory_from_edge_lists el nodeL dtL NtL =
        .error "please provide either positive dt or positive N_time_steps, not both zero") ∧
    (0 < dtL → NtL = 0 → ((el.tmax - el.t.headD 0) / dtL).den ≠ 1 →
      binned_social_trajectory_from_edge_lists el nodeL dtL NtL =
        .error "dt does not nicely divide time interval (tmax - t0) in integer parts") := by
  refine ⟨?_, ?_, ?_, ?_, ?_, ?_⟩
  · intro h1 h2
    simp [binned_social_trajectory_from_edge_changes, resolveBinConfig, h1, h2]
  · intro h1 h2
    simp [binned_social_trajectory_from_edge_changes, resolveBinConfig, h1, h2]
  · intro h1 h2 h3
    simp [binned_social_trajectory_from_edge_changes, resolveBinConfig,
      h1, h2, h3, ne_of_gt h1]
  · intro h1 h2
    have hord' : ¬ el.tmax < el.t.getLast?.getD 0 := by simpa using hord
    simp [binned_social_trajectory_from_edge_lists, resolveBinConfig, hord', h1, h2]
  · intro h1 h2
    have hord' : ¬ el.tmax < el.t.getLast?.getD 0 := by simpa using hord
    simp [binned_social_trajectory_from_edge_lists, resolveBinConfig, hord', h1, h2]
  · intro h1 h2 h3
    have hord' : ¬ el.tmax < el.t.getLast?.getD 0 := by simpa using hord
    have h3' : ((el.tmax - el.t.head?.getD 0) / dtL).den ≠ 1 := by simpa using h3
    simp [binned_social_trajectory_from_edge_lists, resolveBinConfig, hord',
      h1, h2, h3', ne_of_gt h1]

/-- C7 witness instantiation of `binned_config_rejected`: both `dt` and
`N_time_steps` positive is rejected by both variants. -/
theorem binned_config_rejected_witness :
    binned_social_trajectory_from_edge_changes ec7ex 0 1 1 =
      .error "please provide either positive dt or positive N_time_steps, not both positive" ∧
    binned_social_trajectory_from_edge_lists el7ex 0 1 1 =
      .error "please provide either positive dt or positive N_time_steps, not both positive" := by
  have h := binned_config_rejected ec7ex el7ex 0 0 1 1 1 1 (by norm_num [el7ex])
  exact ⟨h.1 one_pos Nat.one_pos, h.2.2.2.1 one_pos Nat.one_pos⟩

/-! ### Canonicalizer lemmas (C4) -/

/-- `getD` after an in-place assignment. -/
theorem listGetD_set (l : List α) (n i : ℕ) (x d : α) :
    (l.set n x).getD i d = if i = n ∧ n < l.length then x else l.getD i d := by
  by_cases him : i = n
  · subst him
    by_cases hn : i < l.length
    · simp [List.getD, List.getElem?_set, hn]
    · simp [List.getD, List.getElem?_set, hn,
        List.getElem?_eq_none (not_lt.mp hn)]
  · simp [List.getD, List.getElem?_set, Ne.symm him, him]

/-- Marking members in an indicator vector preserves its length. -/
theorem foldl_set_length (c : List ℕ) :
    ∀ v : List Bool, (c.foldl (fun v j => v.set j true) v).length = v.length := by
  induction c with
  | nil => intro v; rfl
  | cons a c ih => intro v; rw [List.foldl_cons, ih, List.length_set]

/-- Pointwise description of the marking fold: position `i` is set exactly
when it was set before or is an in-range member of `c`. -/
theorem foldl_set_getD (c : List ℕ) :
    ∀ (v : List Bool) (i : ℕ),
      (c.foldl (fun v j => v.set j true) v).getD i false =
        (v.getD i false || decide (i ∈ c ∧ i < v.length)) := by
  induction c with
  | nil => intro v i; simp
  | cons a c ih =>
    intro v i
    rw [List.foldl_cons, ih, listGetD_set, List.length_set]
    by_cases h1 : i = a
    · subst h1
      by_cases h2 : i < v.length <;> by_cases h3 : i ∈ c <;> simp [h2, h3]
    · by_cases h3 : i ∈ c <;> simp [h1, h3]

/-- The indicator vector has length `N`. -/
theorem buildIndicator_length (N : ℕ) (c : List ℕ) :
    (buildIndicator N c).length = N := by
  rw [buildIndicator, foldl_set_length, List.length_replicate]

/-- Pointwise description of the indicator vector. -/
theorem buildIndicator_getD (N : ℕ) (c : List ℕ) (i : ℕ) :
    (buildIndicator N c).getD i false = decide (i ∈ c ∧ i < N) := by
  rw [buildIndicator, foldl_set_getD, List.length_replicate]
  have : (List.replicate N false).getD i false = false := by
    by_cases hi : i < N
    · rw [List.getD_eq_getElem _ _ (by simpa using hi), List.getElem_replicate]
    · rw [List.getD_eq_default _ _ (by simpa using not_lt.mp hi)]
  rw [this, Bool.false_or]

/-- Two membership lists with the same member set produce the same
indicator vector — discovery order and repetitions are immaterial. -/
theorem buildIndicator_eq_of_same_mem (N : ℕ) (c1 c2 : List ℕ)
    (h : ∀ x, x ∈ c1 ↔ x ∈ c2) : buildIndicator N c1 = buildIndicator N c2 := by
  apply List.ext_getElem (by rw [buildIndicator_length, buildIndicator_length])
  intro i h1 h2
  rw [← List.getD_eq_getElem _ false h1, ← List.getD_eq_getElem _ false h2,
    buildIndicator_getD, buildIndicator_getD]
  simp [h i]

/-- The content hash is order-independent. -/
theorem groupHash_eq_of_same_mem (N : ℕ) (c1 c2 : List ℕ)
    (h : ∀ x, x ∈ c1 ↔ x ∈ c2) : groupHash N c1 = groupHash N c2 := by
  rw [groupHash, groupHash, buildIndicator_eq_of_same_mem N c1 c2 h]

/-- A found registry entry is still found, unchanged, after appending. -/
theorem regFind_append_left (h : ℕ) (m ext : List (ℕ × ℕ)) (l : ℕ)
    (hf : regFind h m = some l) : regFind h (m ++ ext) = some l := by
  induction m with
  | nil => exact absurd hf (by simp [regFind])
  | cons e r ih =>
    by_cases he : e.1 = h <;> simp [regFind, he] at hf ⊢
    · exact hf
    · exact ih hf

/-- Lookup skips a prefix with no matching key. -/
theorem regFind_append_none (h : ℕ) (m m2 : List (ℕ × ℕ))
    (hf : regFind h m = none) : regFind h (m ++ m2) = regFind h m2 := by
  induction m with
  | nil => rfl
  | cons e r ih =>
    by_cases he : e.1 = h <;> simp [regFind, he] at hf ⊢
    exact ih hf

/-- The label a call returns when its hash is already registered. -/
theorem get_group_integer_fst_of_found (N : ℕ) (c : List ℕ)
    (m : List (ℕ × ℕ)) (l : ℕ) (hf : regFind (groupHash N c) m = some l) :
    (get_group_integer N c m).1 = l := by
  simp [get_group_integer, hf]

/-- A canonicalizer call only ever appends to the registry. -/
theorem get_group_integer_extends (N : ℕ) (c : List ℕ) (m : List (ℕ × ℕ)) :
    ∃ ext, (get_group_integer N c m).2.1 = m ++ ext := by
  cases hf : regFind (groupHash N c) m with
  | some l => exact ⟨[], by simp [get_group_integer, hf]⟩
  | none => exact ⟨[(groupHash N c, m.length)], by simp [get_group_integer, hf]⟩

/-- A sequence of canonicalizer calls only ever appends to the registry. -/
theorem runCalls_extends (N : ℕ) (cs : List (List ℕ)) :
    ∀ m, ∃ ext, runCalls N cs m = m ++ ext := by
  induction cs with
  | nil => exact fun m => ⟨[], by simp [runCalls]⟩
  | cons c cs ih =>
    intro m
    obtain ⟨e1, h1⟩ := get_group_integer_extends N c m
    obtain ⟨e2, h2⟩ := ih (get_group_integer N c m).2.1
    refine ⟨e1 ++ e2, ?_⟩
    rw [runCalls, List.foldl_cons, ← runCalls, h2, h1, List.append_assoc]

/-- After a call registered (or found) a set's label, any extension of the
resulting registry still resolves that hash to the same label. -/
theorem regFind_after_call (N : ℕ) (c : List ℕ) (m ext : List (ℕ × ℕ)) :
    regFind (groupHash N c) ((get_group_integer N c m).2.1 ++ ext) =
      some (get_group_integer N c m).1 := by
  cases hf : regFind (groupHash N c) m with
  | some l =>
    simp only [get_group_integer, hf]
    exact regFind_append_left _ m ext l hf
  | none =>
    simp only [get_group_integer, hf]
    rw [List.append_assoc, regFind_append_none _ m _ hf]
    simp [regFind]

/-- C4: within one registry lifetime the canonicalizer (i) gives the same
label to the same membership set regardless of discovery order, (ii) keeps
giving that label after any intervening calls, (iii) hands an unseen set
the smallest unused label — the registry size, while labels `0 .. size-1`
are exactly the used ones — (iv) preserves the dense-labeling invariant,
and (v) never removes or changes an existing registry entry (it only
appends). -/
theorem get_group_integer_canonical (N : ℕ) (c1 c2 : List ℕ)
    (m : List (ℕ × ℕ)) (cs : List (List ℕ))
    (hset : ∀ x, x ∈ c1 ↔ x ∈ c2) :
    (get_group_integer N c1 m).1 = (get_group_integer N c2 m).1 ∧
    (get_group_integer N c1
        (runCalls N cs (get_group_integer N c1 m).2.1)).1 =
      (get_group_integer N c1 m).1 ∧
    (regGood m → regFind (groupHash N c1) m = none →
      (get_group_integer N c1 m).1 = m.length ∧
      (∀ l < m.length, ∃ e ∈ m, e.2 = l) ∧
      (∀ e ∈ m, e.2 ≠ m.length)) ∧
    (regGood m → regGood (get_group_integer N c1 m).2.1) ∧
    (∃ ext, (get_group_integer N c1 m).2.1 = m ++ ext) := by
  refine ⟨?_, ?_, ?_, ?_, get_group_integer_extends N c1 m⟩
  · unfold get_group_integer
    rw [groupHash_eq_of_same_mem N c1 c2 hset]
  · obtain ⟨ext, hext⟩ := runCalls_extends N cs (get_group_integer N c1 m).2.1
    rw [hext]
    exact get_group_integer_fst_of_found N c1 _ _ (regFind_after_call N c1 m ext)
  · intro hgood hf
    refine ⟨by simp [get_group_integer, hf], ?_, ?_⟩
    · intro l hl
      exact ⟨m.get ⟨l, hl⟩, List.get_mem m l hl, hgood l hl⟩
    · intro e he
      obtain ⟨i, rfl⟩ := List.mem_iff_get.mp he
      rw [hgood i.1 i.2]
      exact Nat.ne_of_lt i.2
  · intro hgood
    cases hf : regFind (groupHash N c1) m with
    | some l => simpa [get_group_integer, hf] using hgood
    | none =>
      simp only [get_group_integer, hf]
      unfold regGood
      intro i hi
      have hi2 : i < m.length + 1 := by
        simpa [List.length_append] using hi
      rcases Nat.lt_succ_iff_lt_or_eq.mp hi2 with hlt | rfl
      · rw [List.get_eq_getElem, List.getElem_append_left hlt]
        exact hgood i hlt
      · rw [List.get_eq_getElem, List.getElem_append_right (le_refl _)]
        simp

/-- C4 witness instantiation of `get_group_integer_canonical`: the member
lists `[0,2]` and `[2,0,2]` describe the same set; on the registry
`[(9,0)]` (one used label) the unseen set receives label `1 = size`, and
the dense-labeling invariant persists. -/
theorem get_group_integer_canonical_witness :
    (get_group_integer 3 [0, 2] [(9, 0)]).1 =
      (get_group_integer 3 [2, 0, 2] [(9, 0)]).1 ∧
    (get_group_integer 3 [0, 2]
        (runCalls 3 [[1]] (get_group_integer 3 [0, 2] [(9, 0)]).2.1)).1 =
      (get_group_integer 3 [0, 2] [(9, 0)]).1 ∧
    (get_group_integer 3 [0, 2] [(9, 0)]).1 = 1 ∧
    regGood (get_group_integer 3 [0, 2] [(9, 0)]).2.1 := by
  have h := get_group_integer_canonical 3 [0, 2] [2, 0, 2] [(9, 0)] [[1]]
    (by intro x; constructor <;> (intro hx; simp at hx ⊢; tauto))
  refine ⟨h.1, h.2.1, ?_, h.2.2.2.1 (by decide)⟩
  have h3 := h.2.2.1 (by decide) (by decide)
  simpa using h3.1

/-! ### SIRS cache-consistency lemmas (C1) -/

/-- Membership in the from-scratch rebuilt `SI_edges`. -/
theorem mem_SI_update_full (st : SIRSState) (Gn : List (Finset ℕ)) (p : ℕ × ℕ) :
    p ∈ (update_network_full Gn st).SI_edges ↔
      (p.1 ∈ st.infected ∧ p.2 ∈ nbrsOf Gn p.1 ∧ statusOf st p.2 = EPI.S) := by
  obtain ⟨i, j⟩ := p
  simp only [update_network_full, List.mem_flatMap, List.mem_map,
    List.mem_filter, Finset.mem_sort, decide_eq_true_eq, nbrsOf]
  constructor
  · rintro ⟨inf, hinf, nb, ⟨hnb, hnbS⟩, heq⟩
    obtain ⟨rfl, rfl⟩ := Prod.mk.injEq .. ▸ heq
    exact ⟨hinf, hnb, hnbS⟩
  · rintro ⟨h1, h2, h3⟩
    exact ⟨i, h1, j, ⟨h2, h3⟩, rfl⟩

/-- The from-scratch `update_network` overload establishes well-formedness
and the cache invariant on any well-formed graph. -/
theorem upd_full_consistency (st : SIRSState) (Gn : List (Finset ℕ))
    (hwf : sirsWF st) (hG : graphWF st.N Gn) :
    sirsWF (update_network_full Gn st) ∧
      sirsInv (update_network_full Gn st) := by
  obtain ⟨hlen, hinfR, hrecR, hinfN, hrecN, hstI, hstR, _, _⟩ := hwf
  obtain ⟨hGlen, hGrange, hGsym⟩ := hG
  refine ⟨⟨hlen, hinfR, hrecR, hinfN, hrecN, hstI, hstR, ?_, hGlen, hGrange, hGsym⟩, ?_⟩
  · intro e he
    rw [mem_SI_update_full] at he
    exact ⟨hinfR e.1 he.1, hGrange e.1 (hinfR e.1 he.1) e.2 he.2.1⟩
  · intro i hi j hj
    rw [mem_SI_update_full]
    constructor
    · rintro ⟨h1, h2, h3⟩
      exact ⟨(hstI i hi).mpr h1, h3, h2⟩
    · rintro ⟨h1, h2, h3⟩
      exact ⟨(hstI i hi).mp h1, h3, h2⟩

/-- Membership in the `edges_in` contributions of the incremental update:
exactly the `(infected, susceptible)` orientations of listed edges. -/
theorem mem_incAdditions (st : SIRSState) (ein : List (ℕ × ℕ)) (i j : ℕ) :
    (i, j) ∈ incAdditions st ein ↔
      (statusOf st i = EPI.I ∧ statusOf st j = EPI.S ∧
        ((j, i) ∈ ein ∨ (i, j) ∈ ein)) := by
  simp only [incAdditions, List.mem_filterMap]
  constructor
  · rintro ⟨e, he, hf⟩
    by_cases h1 : statusOf st e.1 = EPI.S ∧ statusOf st e.2 = EPI.I
    · rw [if_pos h1] at hf
      obtain ⟨rfl, rfl⟩ := Prod.mk.injEq .. ▸ (Option.some.injEq .. ▸ hf)
      exact ⟨h1.2, h1.1, Or.inl (by simpa using he)⟩
    · rw [if_neg h1] at hf
      by_cases h2 : statusOf st e.2 = EPI.S ∧ statusOf st e.1 = EPI.I
      · rw [if_pos h2] at hf
        obtain ⟨rfl, rfl⟩ := Prod.mk.injEq .. ▸ (Option.some.injEq .. ▸ hf)
        exact ⟨h2.2, h2.1, Or.inr (by simpa using he)⟩
      · rw [if_neg h2] at hf
        exact absurd hf (by simp)
  · rintro ⟨hI, hS, hji | hij⟩
    · refine ⟨(j, i), hji, ?_⟩
      rw [if_pos ⟨hS, hI⟩]
    · refine ⟨(i, j), hij, ?_⟩
      rw [if_neg (by rintro ⟨h1, _⟩; rw [hI] at h1; cases h1), if_pos ⟨hS, hI⟩]

/-- With ascending `edges_out` pairs, the literal sorted-pair test of the
incremental update agrees with unordered edge membership. -/
theorem sortPair_mem_iff (eout : List (ℕ × ℕ)) (hasc : ∀ e ∈ eout, e.1 < e.2)
    (i j : ℕ) :
    sortPair (i, j) ∈ eout ↔ ((i, j) ∈ eout ∨ (j, i) ∈ eout) := by
  unfold sortPair
  by_cases hji : j < i
  · rw [if_pos hji]
    constructor
    · exact fun h => Or.inr h
    · rintro (h | h)
      · exact absurd (hasc _ h) (by simpa using hji.le)
      · exact h
  · rw [if_neg hji]
    constructor
    · exact fun h => Or.inl h
    · rintro (h | h)
      · exact h
      · have := hasc _ h
        exact absurd (this.trans_le (not_lt.mp hji)) (lt_irrefl j)

/-- The incremental `update_network` overload preserves well-formedness and
the cache invariant, provided the `edges_out` pairs are listed in ascending
order, the `edges_in` pairs are in range, and the new graph is the old one
with `edges_out` removed and `edges_in` added. -/
theorem upd_inc_consistency (st : SIRSState) (Gn : List (Finset ℕ))
    (ein eout : List (ℕ × ℕ)) (hwf : sirsWF st) (hinv : sirsInv st)
    (hG : graphWF st.N Gn)
    (hasc : ∀ e ∈ eout, e.1 < e.2)
    (heinR : ∀ e ∈ ein, e.1 < st.N ∧ e.2 < st.N)
    (hrel : ∀ i < st.N, ∀ j < st.N,
      (j ∈ nbrsOf Gn i ↔
        ((j ∈ nbrsOf st.G i ∧ (i, j) ∉ eout ∧ (j, i) ∉ eout) ∨
          (i, j) ∈ ein ∨ (j, i) ∈ ein))) :
    sirsWF (update_network_inc Gn ein eout st) ∧
      sirsInv (update_network_inc Gn ein eout st) := by
  obtain ⟨hlen, hinfR, hrecR, hinfN, hrecN, hstI, hstR, hSIr, _⟩ := hwf
  obtain ⟨hGlen, hGrange, hGsym⟩ := hG
  have hmem : ∀ p : ℕ × ℕ, p ∈ (update_network_inc Gn ein eout st).SI_edges ↔
      ((p ∈ st.SI_edges ∧ sortPair p ∉ eout) ∨ p ∈ incAdditions st ein) := by
    intro p
    simp [update_network_inc, List.mem_filter]
  refine ⟨⟨hlen, hinfR, hrecR, hinfN, hrecN, hstI, hstR, ?_, hGlen, hGrange, hGsym⟩, ?_⟩
  · intro e he
    rcases (hmem e).mp he with ⟨h1, _⟩ | h2
    · exact hSIr e h1
    · obtain ⟨i, j⟩ := e
      rcases (mem_incAdditions st ein i j).mp h2 with ⟨_, _, hji | hij⟩
      · have := heinR _ hji
        exact ⟨this.2, this.1⟩
      · exact heinR _ hij
  · intro i hi j hj
    rw [hmem]
    constructor
    · rintro (⟨h1, h2⟩ | h2)
      · have hold := (hinv i hi j hj).mp h1
        rw [sortPair_mem_iff eout hasc i j] at h2
        push_neg at h2
        exact ⟨hold.1, hold.2.1,
          (hrel i hi j hj).mpr (Or.inl ⟨hold.2.2, h2.1, h2.2⟩)⟩
      · rcases (mem_incAdditions st ein i j).mp h2 with ⟨hI, hS, hor⟩
        exact ⟨hI, hS, (hrel i hi j hj).mpr (Or.inr (hor.symm.imp id id))⟩
    · rintro ⟨hI, hS, hadj⟩
      rcases (hrel i hi j hj).mp hadj with ⟨hold, hno1, hno2⟩ | hin
      · refine Or.inl ⟨(hinv i hi j hj).mpr ⟨hI, hS, hold⟩, ?_⟩
        rw [sortPair_mem_iff eout hasc i j]
        rintro (h | h)
        · exact hno1 h
        · exact hno2 h
      · exact Or.inr ((mem_incAdditions st ein i j).mpr
          ⟨hI, hS, hin.symm.imp id id⟩)

/-- `infection_event` preserves well-formedness and the cache invariant. -/
theorem infection_consistency (st : SIRSState) (k : ℕ) (st' : SIRSState)
    (hwf : sirsWF st) (hinv : sirsInv st)
    (happ : infection_event k st = some st') :
    sirsWF st' ∧ sirsInv st' := by
  obtain ⟨hlen, hinfR, hrecR, hinfN, hrecN, hstI, hstR, hSIr, hGwf⟩ := hwf
  obtain ⟨hGlen, hGrange, hGsym⟩ := hGwf
  rw [infection_event] at happ
  split at happ
  case isFalse hk => exact absurd happ (by simp)
  case isTrue hk =>
    rw [Option.some.injEq] at happ
    subst happ
    have hemem : st.SI_edges.get ⟨k, hk⟩ ∈ st.SI_edges := List.get_mem _ _ _
    set e := st.SI_edges.get ⟨k, hk⟩ with hedef
    have hiN : e.1 < st.N := (hSIr e hemem).1
    have hsN : e.2 < st.N := (hSIr e hemem).2
    have hstatS : statusOf st e.2 = EPI.S :=
      ((hinv e.1 hiN e.2 hsN).mp (by rwa [Prod.mk.eta])).2.1
    have hsLen : e.2 < st.node_status.length := by rw [hlen]; exact hsN
    have hstat' : ∀ x, (st.node_status.set e.2 EPI.I).getD x EPI.S =
        if x = e.2 then EPI.I else statusOf st x := by
      intro x
      rw [listGetD_set]
      by_cases hx : x = e.2
      · simp [hx, hsLen]
      · simp [hx, statusOf]
    have hnotinf : e.2 ∉ st.infected := fun hm => by
      have := (hstI e.2 hsN).mpr hm
      rw [hstatS] at this
      cases this
    have hnotrec : e.2 ∉ st.recovered := fun hm => by
      have := (hstR e.2 hsN).mpr hm
      rw [hstatS] at this
      cases this
    have hmem : ∀ a b : ℕ,
        ((a, b) ∈ (st.SI_edges.filter fun p => p.2 ≠ e.2) ++
            (((st.G.getD e.2 ∅).sort (· ≤ ·)).filter
              fun nb => (st.node_status.set e.2 EPI.I).getD nb EPI.S = EPI.S).map
              fun nb => (e.2, nb)) ↔
          (((a, b) ∈ st.SI_edges ∧ b ≠ e.2) ∨
            (a = e.2 ∧ b ∈ nbrsOf st.G e.2 ∧
              (st.node_status.set e.2 EPI.I).getD b EPI.S = EPI.S)) := by
      intro a b
      simp only [List.mem_append, List.mem_filter, List.mem_map,
        Finset.mem_sort, decide_eq_true_eq, nbrsOf]
      constructor
      · rintro (⟨h1, h2⟩ | ⟨nb, ⟨hnb, hnbS⟩, heq⟩)
        · exact Or.inl ⟨h1, h2⟩
        · obtain ⟨rfl, rfl⟩ := Prod.mk.injEq .. ▸ heq
          exact Or.inr ⟨rfl, hnb, hnbS⟩
      · rintro (⟨h1, h2⟩ | ⟨rfl, h2, h3⟩)
        · exact Or.inl ⟨h1, h2⟩
        · exact Or.inr ⟨b, ⟨h2, h3⟩, rfl⟩
    constructor
    · refine ⟨by simpa [List.length_set] using hlen, ?_, hrecR, ?_, hrecN, ?_, ?_, ?_,
        hGlen, hGrange, hGsym⟩
      · intro i hi
        rcases List.mem_append.mp hi with h | h
        · exact hinfR i h
        · rw [List.mem_singleton] at h
          exact h ▸ hsN
      · rw [List.nodup_append]
        exact ⟨hinfN, List.nodup_singleton _, by simpa using hnotinf⟩
      · intro i hi
        show ((st.node_status.set e.2 EPI.I).getD i EPI.S = EPI.I ↔ _)
        rw [hstat']
        by_cases hx : i = e.2
        · simp [hx]
        · simpa [hx] using (hstI i hi).trans (by simp [hx])
      · intro i hi
        show ((st.node_status.set e.2 EPI.I).getD i EPI.S = EPI.R ↔ _)
        rw [hstat']
        by_cases hx : i = e.2
        · subst hx
          simp only [if_pos rfl]
          constructor
          · intro h; cases h
          · intro h; exact absurd h hnotrec
        · rw [if_neg hx]
          exact hstR i hi
      · intro p hp
        rcases (hmem p.1 p.2).mp (by rwa [Prod.mk.eta]) with ⟨h1, _⟩ | ⟨h1, h2, _⟩
        · exact hSIr p h1
        · exact ⟨h1 ▸ hsN, hGrange e.2 hsN p.2 h2⟩
    · intro i hi j hj
      show ((i, j) ∈ _ ↔ _)
      rw [hmem i j]
      constructor
      · rintro (⟨h1, h2⟩ | ⟨rfl, h2, h3⟩)
        · have hold := (hinv i hi j hj).mp h1
          have hine : i ≠ e.2 := fun he => by
            rw [he, hstatS] at hold
            cases hold.1
          refine ⟨?_, ?_, hold.2.2⟩
          · show (st.node_status.set e.2 EPI.I).getD i EPI.S = EPI.I
            rw [hstat', if_neg hine]
            exact hold.1
          · show (st.node_status.set e.2 EPI.I).getD j EPI.S = EPI.S
            rw [hstat', if_neg h2]
            exact hold.2.1
        · refine ⟨?_, h3, h2⟩
          show (st.node_status.set e.2 EPI.I).getD e.2 EPI.S = EPI.I
          rw [hstat', if_pos rfl]
      · rintro ⟨h1, h2, h3⟩
        replace h1 : (st.node_status.set e.2 EPI.I).getD i EPI.S = EPI.I := h1
        replace h2 : (st.node_status.set e.2 EPI.I).getD j EPI.S = EPI.S := h2
        have hjne : j ≠ e.2 := fun he => by
          rw [he, hstat', if_pos rfl] at h2
          cases h2
        by_cases hie : i = e.2
        · exact Or.inr ⟨hie, hie ▸ h3, h2⟩
        · rw [hstat', if_neg hie] at h1
          rw [hstat', if_neg hjne] at h2
          exact Or.inl ⟨(hinv i hi j hj).mpr ⟨h1, h2, h3⟩, hjne⟩

/-- Membership after erasing index `k` from a duplicate-free list. -/
theorem mem_eraseIdx_nodup (l : List ℕ) :
    ∀ (k : ℕ) (hk : k < l.length), l.Nodup →
      ∀ x, (x ∈ l.eraseIdx k ↔ x ∈ l ∧ x ≠ l.get ⟨k, hk⟩) := by
  induction l with
  | nil => intro k hk; cases hk
  | cons a r ih =>
    intro k hk hn x
    have ha : a ∉ r := (List.nodup_cons.mp hn).1
    have hr : r.Nodup := (List.nodup_cons.mp hn).2
    cases k with
    | zero =>
      simp only [List.eraseIdx, List.get, List.mem_cons]
      constructor
      · intro hx
        exact ⟨Or.inr hx, fun he => ha (he ▸ hx)⟩
      · rintro ⟨hx | hx, hne⟩
        · exact absurd hx hne
        · exact hx
    | succ k =>
      have hk' : k < r.length := by simpa using hk
      simp only [List.eraseIdx, List.get, List.mem_cons]
      rw [ih k hk' hr x]
      constructor
      · rintro (rfl | ⟨hx, hne⟩)
        · exact ⟨Or.inl rfl, fun he => ha (he ▸ List.get_mem r k hk')⟩
        · exact ⟨Or.inr hx, hne⟩
      · rintro ⟨rfl | hx, hne⟩
        · exact Or.inl rfl
        · exact Or.inr ⟨hx, hne⟩

/-- `recovery_event` preserves well-formedness and the cache invariant. -/
theorem recovery_consistency (st : SIRSState) (k : ℕ) (st' : SIRSState)
    (hwf : sirsWF st) (hinv : sirsInv st)
    (happ : recovery_event k st = some st') :
    sirsWF st' ∧ sirsInv st' := by
  obtain ⟨hlen, hinfR, hrecR, hinfN, hrecN, hstI, hstR, hSIr, hGwf⟩ := hwf
  obtain ⟨hGlen, hGrange, hGsym⟩ := hGwf
  rw [recovery_event] at happ
  split at happ
  case isFalse hk => exact absurd happ (by simp)
  case isTrue hk =>
    rw [Option.some.injEq] at happ
    subst happ
    have himem : st.infected.get ⟨k, hk⟩ ∈ st.infected := List.get_mem _ _ _
    set v := st.infected.get ⟨k, hk⟩ with hvdef
    have hvN : v < st.N := hinfR v himem
    have hstatI : statusOf st v = EPI.I := (hstI v hvN).mpr himem
    have hvLen : v < st.node_status.length := by rw [hlen]; exact hvN
    have hstat' : ∀ x, (st.node_status.set v EPI.R).getD x EPI.S =
        if x = v then EPI.R else statusOf st x := by
      intro x
      rw [listGetD_set]
      by_cases hx : x = v
      · simp [hx, hvLen]
      · simp [hx, statusOf]
    have hnotrec : v ∉ st.recovered := fun hm => by
      have := (hstR v hvN).mpr hm
      rw [hstatI] at this
      cases this
    have hmem : ∀ a b : ℕ,
        ((a, b) ∈ st.SI_edges.filter fun p => p.1 ≠ v) ↔
          ((a, b) ∈ st.SI_edges ∧ a ≠ v) := by
      intro a b
      simp [List.mem_filter]
    constructor
    · refine ⟨by simpa [List.length_set] using hlen, ?_, ?_, ?_, ?_, ?_, ?_, ?_,
        hGlen, hGrange, hGsym⟩
      · intro i hi
        exact hinfR i (List.mem_of_mem_eraseIdx hi)
      · intro r hr
        rcases List.mem_append.mp hr with h | h
        · exact hrecR r h
        · rw [List.mem_singleton] at h
          exact h ▸ hvN
      · exact List.Nodup.sublist (List.eraseIdx_sublist _ k) hinfN
      · rw [List.nodup_append]
        exact ⟨hrecN, List.nodup_singleton _, by simpa using hnotrec⟩
      · intro i hi
        show ((st.node_status.set v EPI.R).getD i EPI.S = EPI.I ↔
          i ∈ st.infected.eraseIdx k)
        rw [hstat', mem_eraseIdx_nodup st.infected k hk hinfN i]
        by_cases hx : i = v
        · subst hx
          rw [if_pos rfl]
          constructor
          · intro h; cases h
          · rintro ⟨_, hne⟩; exact absurd rfl hne
        · rw [if_neg hx]
          rw [hstI i hi]
          constructor
          · intro h; exact ⟨h, hx⟩
          · rintro ⟨h, _⟩; exact h
      · intro i hi
        show ((st.node_status.set v EPI.R).getD i EPI.S = EPI.R ↔
          i ∈ st.recovered ++ [v])
        rw [hstat']
        by_cases hx : i = v
        · simp [hx]
        · rw [if_neg hx]
          simpa [hx] using hstR i hi
      · intro p hp
        exact hSIr p ((hmem p.1 p.2).mp (by rwa [Prod.mk.eta])).1
    · intro i hi j hj
      show ((i, j) ∈ _ ↔ _)
      rw [hmem i j]
      constructor
      · rintro ⟨h1, h2⟩
        have hold := (hinv i hi j hj).mp h1
        have hjne : j ≠ v := fun he => by
          rw [he, hstatI] at hold
          cases hold.2.1
        refine ⟨?_, ?_, hold.2.2⟩
        · show (st.node_status.set v EPI.R).getD i EPI.S = EPI.I
          rw [hstat', if_neg h2]
          exact hold.1
        · show (st.node_status.set v EPI.R).getD j EPI.S = EPI.S
          rw [hstat', if_neg hjne]
          exact hold.2.1
      · rintro ⟨h1, h2, h3⟩
        replace h1 : (st.node_status.set v EPI.R).getD i EPI.S = EPI.I := h1
        replace h2 : (st.node_status.set v EPI.R).getD j EPI.S = EPI.S := h2
        have hine : i ≠ v := fun he => by
          rw [he, hstat', if_pos rfl] at h1
          cases h1
        have hjne : j ≠ v := fun he => by
          rw [he, hstat', if_pos rfl] at h2
          cases h2
        rw [hstat', if_neg hine] at h1
        rw [hstat', if_neg hjne] at h2
        exact ⟨(hinv i hi j hj).mpr ⟨h1, h2, h3⟩, hine⟩

/-- `susceptible_event` preserves well-formedness and the cache invariant
(this is where graph symmetry is needed: the new cache entries come from
the waning node's neighbor list, oriented the other way). -/
theorem susceptible_consistency (st : SIRSState) (k : ℕ) (st' : SIRSState)
    (hwf : sirsWF st) (hinv : sirsInv st)
    (happ : susceptible_event k st = some st') :
    sirsWF st' ∧ sirsInv st' := by
  obtain ⟨hlen, hinfR, hrecR, hinfN, hrecN, hstI, hstR, hSIr, hGwf⟩ := hwf
  obtain ⟨hGlen, hGrange, hGsym⟩ := hGwf
  rw [susceptible_event] at happ
  split at happ
  case isFalse hk => exact absurd happ (by simp)
  case isTrue hk =>
    rw [Option.some.injEq] at happ
    subst happ
    have hrmem : st.recovered.get ⟨k, hk⟩ ∈ st.recovered := List.get_mem _ _ _
    set v := st.recovered.get ⟨k, hk⟩ with hvdef
    have hvN : v < st.N := hrecR v hrmem
    have hstatR : statusOf st v = EPI.R := (hstR v hvN).mpr hrmem
    have hvLen : v < st.node_status.length := by rw [hlen]; exact hvN
    have hstat' : ∀ x, (st.node_status.set v EPI.S).getD x EPI.S =
        if x = v then EPI.S else statusOf st x := by
      intro x
      rw [listGetD_set]
      by_cases hx : x = v
      · simp [hx, hvLen]
      · simp [hx, statusOf]
    have hnotinf : v ∉ st.infected := fun hm => by
      have := (hstI v hvN).mpr hm
      rw [hstatR] at this
      cases this
    have hmem : ∀ a b : ℕ,
        ((a, b) ∈ st.SI_edges ++
            (((st.G.getD v ∅).sort (· ≤ ·)).filter
              fun nb => (st.node_status.set v EPI.S).getD nb EPI.S = EPI.I).map
              fun nb => (nb, v)) ↔
          ((a, b) ∈ st.SI_edges ∨
            (b = v ∧ a ∈ nbrsOf st.G v ∧
              (st.node_status.set v EPI.S).getD a EPI.S = EPI.I)) := by
      intro a b
      simp only [List.mem_append, List.mem_filter, List.mem_map,
        Finset.mem_sort, decide_eq_true_eq, nbrsOf]
      constructor
      · rintro (h | ⟨nb, ⟨hnb, hnbI⟩, heq⟩)
        · exact Or.inl h
        · obtain ⟨rfl, rfl⟩ := Prod.mk.injEq .. ▸ heq
          exact Or.inr ⟨rfl, hnb, hnbI⟩
      · rintro (h | ⟨rfl, h2, h3⟩)
        · exact Or.inl h
        · exact Or.inr ⟨a, ⟨h2, h3⟩, rfl⟩
    constructor
    · refine ⟨by simpa [List.length_set] using hlen, hinfR, ?_, hinfN, ?_, ?_, ?_, ?_,
        hGlen, hGrange, hGsym⟩
      · intro r hr
        exact hrecR r (List.mem_of_mem_eraseIdx hr)
      · exact List.Nodup.sublist (List.eraseIdx_sublist _ k) hrecN
      · intro i hi
        show ((st.node_status.set v EPI.S).getD i EPI.S = EPI.I ↔ i ∈ st.infected)
        rw [hstat']
        by_cases hx : i = v
        · subst hx
          rw [if_pos rfl]
          constructor
          · intro h; cases h
          · intro h; exact absurd h hnotinf
        · rw [if_neg hx]
          exact hstI i hi
      · intro i hi
        show ((st.node_status.set v EPI.S).getD i EPI.S = EPI.R ↔
          i ∈ st.recovered.eraseIdx k)
        rw [hstat', mem_eraseIdx_nodup st.recovered k hk hrecN i]
        by_cases hx : i = v
        · subst hx
          rw [if_pos rfl]
          constructor
          · intro h; cases h
          · rintro ⟨_, hne⟩; exact absurd rfl hne
        · rw [if_neg hx, hstR i hi]
          constructor
          · intro h; exact ⟨h, hx⟩
          · rintro ⟨h, _⟩; exact h
      · intro p hp
        rcases (hmem p.1 p.2).mp (by rwa [Prod.mk.eta]) with h | ⟨h1, h2, _⟩
        · exact hSIr p h
        · exact ⟨hGrange v hvN p.1 h2, h1 ▸ hvN⟩
    · intro i hi j hj
      show ((i, j) ∈ _ ↔ _)
      rw [hmem i j]
      constructor
      · rintro (h | ⟨rfl, h2, h3⟩)
        · have hold := (hinv i hi j hj).mp h
          have hine : i ≠ v := fun he => by
            rw [he, hstatR] at hold
            cases hold.1
          have hjne : j ≠ v := fun he => by
            rw [he, hstatR] at hold
            cases hold.2.1
          refine ⟨?_, ?_, hold.2.2⟩
          · show (st.node_status.set v EPI.S).getD i EPI.S = EPI.I
            rw [hstat', if_neg hine]
            exact hold.1
          · show (st.node_status.set v EPI.S).getD j EPI.S = EPI.S
            rw [hstat', if_neg hjne]
            exact hold.2.1
        · refine ⟨h3, ?_, ?_⟩
          · show (st.node_status.set v EPI.S).getD v EPI.S = EPI.S
            rw [hstat', if_pos rfl]
          · exact (hGsym i hi v hvN).mpr h2
      · rintro ⟨h1, h2, h3⟩
        replace h1 : (st.node_status.set v EPI.S).getD i EPI.S = EPI.I := h1
        replace h2 : (st.node_status.set v EPI.S).getD j EPI.S = EPI.S := h2
        have hine : i ≠ v := fun he => by
          rw [he, hstat', if_pos rfl] at h1
          cases h1
        by_cases hje : j = v
        · subst hje
          exact Or.inr ⟨rfl, (hGsym i hi v hvN).mp h3, h1⟩
        · rw [hstat', if_neg hine] at h1
          rw [hstat', if_neg hje] at h2
          exact Or.inl ((hinv i hi j hj).mpr ⟨h1, h2, h3⟩)

/-- C1 (amended): every mutating SIRS operation — both `update_network`
overloads and the three epidemic events — preserves well-formedness and
keeps the incrementally maintained `SI_edges` cache equal to the
from-scratch recomputation (the set of pairs `(i, s)` with `i` infected,
`s` susceptible, `{i, s}` a current edge), provided the operation's inputs
are valid; for the incremental update validity includes the `edges_out`
pairs being listed in ascending order, without which the cache can go
stale (see the counterexample). -/
theorem sirs_cache_consistency (st : SIRSState) (op : SIRSOp)
    (st' : SIRSState) (hwf : sirsWF st) (hinv : sirsInv st)
    (hv : opValid op st) (happ : applyOp op st = some st') :
    sirsWF st' ∧ sirsInv st' := by
  cases op with
  | updFull Gn =>
    rw [applyOp, Option.some.injEq] at happ
    exact happ ▸ upd_full_consistency st Gn hwf hv
  | updInc Gn ein eout =>
    rw [applyOp, Option.some.injEq] at happ
    obtain ⟨hG, hasc, heinR, hrel⟩ := hv
    exact happ ▸ upd_inc_consistency st Gn ein eout hwf hinv hG hasc heinR hrel
  | infect k => exact infection_consistency st k st' hwf hinv happ
  | recover k => exact recovery_consistency st k st' hwf hinv happ
  | wane k => exact susceptible_consistency st k st' hwf hinv happ

/-- C1 counterexample: from the consistent state `stC1cex`, the
incremental `update_network` applying `edges_out = [(1, 0)]` (the removed
edge listed with the larger id first, as the claim's universal statement
permits) leaves the stale entry `(1, 0)` in `SI_edges` although the edge
is gone — the cache no longer equals the from-scratch recomputation. -/
theorem sirs_cache_goes_stale_on_descending_edges_out :
    sirsWF stC1cex ∧ sirsInv stC1cex ∧
      ¬ sirsInv (update_network_inc [∅, ∅] [] [(1, 0)] stC1cex) := by
  refine ⟨by decide, by decide, by decide⟩

/-- C1 witness instantiation of `sirs_cache_consistency`: an infection
event on `stC1cex` (node 0 becomes infected, cache empties). -/
theorem sirs_cache_consistency_witness : sirsWF stC1res ∧ sirsInv stC1res :=
  sirs_cache_consistency stC1cex (.infect 0) stC1res (by decide) (by decide)
    (by decide) (by with_unfolding_all decide)

/-! ### Interval-mode tiling lemmas (C3) -/

/-- Pushing a pair onto the `k`-th entry's interval list adds exactly that
pair to the multiset of all intervals. -/
theorem pairsOf_push (traj : List SocialTrajectoryEntry) :
    ∀ k : ℕ, k < traj.length → ∀ pr : ℚ × ℚ,
      (↑(pairsOf (listModify traj k
          fun en => { en with time_pairs := en.time_pairs ++ [pr] })) :
        Multiset (ℚ × ℚ)) = ↑(pairsOf traj) + {pr} := by
  induction traj with
  | nil => intro k hk; cases hk
  | cons a r ih =>
    intro k hk pr
    cases k with
    | zero =>
      show (↑(pairsOf ({ a with time_pairs := a.time_pairs ++ [pr] } :: r)) :
        Multiset (ℚ × ℚ)) = _
      simp only [pairsOf, List.flatMap_cons]
      rw [← Multiset.coe_add, ← Multiset.coe_add, ← Multiset.coe_add]
      show (↑(a.time_pairs) + ↑[pr] : Multiset (ℚ × ℚ)) + _ = _
      rw [add_right_comm]
      rfl
    | succ k =>
      have hk' : k < r.length := by simpa using hk
      show (↑(pairsOf (a :: listModify r k _)) : Multiset (ℚ × ℚ)) = _
      simp only [pairsOf, List.flatMap_cons] at ih ⊢
      rw [← Multiset.coe_add, ih k hk' pr, ← Multiset.coe_add, add_assoc]

/-- `listModify` preserves length. -/
theorem listModify_length (l : List α) :
    ∀ (k : ℕ) (f : α → α), (listModify l k f).length = l.length := by
  induction l with
  | nil => intro k f; rfl
  | cons a r ih =>
    intro k f
    cases k with
    | zero => rfl
    | succ k => show (a :: listModify r k f).length = _; simp [ih]

/-- A hit in the registry is an actual entry. -/
theorem regFind_mem (h : ℕ) (m : List (ℕ × ℕ)) (l : ℕ)
    (hf : regFind h m = some l) : (h, l) ∈ m := by
  induction m with
  | nil => exact absurd hf (by simp [regFind])
  | cons e r ih =>
    by_cases he : e.1 = h <;> simp [regFind, he] at hf
    · rw [List.mem_cons]
      exact Or.inl (by rw [← he, ← hf])
    · exact List.mem_cons_of_mem e (ih hf)

/-- The emission block adds exactly the emitted pair to the interval
multiset and keeps the registry and trajectory list in sync. -/
theorem emitPair_spec (N : ℕ) (comp : Finset ℕ) (pr : ℚ × ℚ)
    (m : List (ℕ × ℕ)) (traj : List SocialTrajectoryEntry)
    (hsync : m.length = traj.length)
    (hvals : ∀ e ∈ m, e.2 < m.length) :
    (↑(pairsOf (emitPair N comp pr m traj).2) : Multiset (ℚ × ℚ)) =
        ↑(pairsOf traj) + {pr} ∧
      (emitPair N comp pr m traj).1.length =
        (emitPair N comp pr m traj).2.length ∧
      (∀ e ∈ (emitPair N comp pr m traj).1,
        e.2 < (emitPair N comp pr m traj).1.length) := by
  unfold emitPair
  cases hf : regFind (groupHash N (comp.sort (· ≤ ·))) m with
  | some l =>
    have hl : l < m.length := hvals (groupHash N (comp.sort (· ≤ ·)), l)
      (regFind_mem _ m l hf)
    have hlne : ¬ l = traj.length := by rw [← hsync]; exact Nat.ne_of_lt hl
    simp only [get_group_integer, hf, if_neg hlne]
    refine ⟨pairsOf_push traj l (hsync ▸ hl) pr, ?_, hvals⟩
    rw [listModify_length]
    exact hsync
  | none =>
    simp only [get_group_integer, hf]
    rw [if_pos hsync, hsync]
    refine ⟨?_, ?_, ?_⟩
    · rw [pairsOf_push _ traj.length (by simp) pr]
      simp [pairsOf]
    · rw [listModify_length]
      simp [hsync]
    · intro e he
      rcases List.mem_append.mp he with h | h
      · have := hvals e h
        simp only [List.length_append, List.length_singleton]
        exact this.trans (Nat.lt_succ_self _)
      · rw [List.mem_singleton] at h
        subst h
        simp only [List.length_append, List.length_singleton]
        omega

/-- `chainPairs` over a cut list extended on the right. -/
theorem chainPairs_append_single (c : List ℚ) (b t : ℚ)
    (hb : c.getLast? = some b) :
    chainPairs (c ++ [t]) = chainPairs c ++ [(b, t)] := by
  induction c with
  | nil => cases hb
  | cons x r ih =>
    cases r with
    | nil =>
      have hxb : x = b := by simpa using hb
      subst hxb
      rfl
    | cons y r2 =>
      have hb2 : (y :: r2).getLast? = some b := by
        rwa [List.getLast?_cons_cons] at hb
      show (x, y) :: chainPairs ((y :: r2) ++ [t]) = _
      rw [ih hb2]
      rfl

/-- A strictly increasing cut list runs from its head to its last. -/
theorem chain_head_le_last :
    ∀ (c : List ℚ) (a b : ℚ), c.Chain' (· < ·) → c.head? = some a →
      c.getLast? = some b → a ≤ b := by
  intro c
  induction c with
  | nil => intro a b _ hh; cases hh
  | cons x r ih =>
    intro a b hch hh hl
    rw [List.head?_cons, Option.some.injEq] at hh
    subst hh
    cases r with
    | nil =>
      have hxb : x = b := by simpa using hl
      exact hxb.le
    | cons y r2 =>
      have hxy := List.chain'_cons.mp hch
      have := ih y b hxy.2 rfl (by rwa [List.getLast?_cons_cons] at hl)
      linarith [hxy.1]

/-- The empty interval collection tiles the degenerate span `[a, a]`. -/
theorem tiles_single (a : ℚ) : tilesFromTo 0 a a :=
  ⟨[a], List.chain'_singleton a, rfl, rfl, rfl⟩

/-- Appending the interval `(b, t)` extends a tiling of `[a, b]` to one of
`[a, t]`. -/
theorem tiles_extend (P : Multiset (ℚ × ℚ)) (a b t : ℚ)
    (h : tilesFromTo P a b) (hbt : b < t) : tilesFromTo (P + {(b, t)}) a t := by
  obtain ⟨c, hch, hh, hl, hP⟩ := h
  have hcne : c ≠ [] := by rintro rfl; cases hh
  refine ⟨c ++ [t], ?_, ?_, ?_, ?_⟩
  · refine List.Chain'.append hch (List.chain'_singleton _) ?_
    intro x hx y hy
    simp only [List.head?_cons, Option.mem_def, Option.some.injEq] at hy
    subst hy
    rw [Option.mem_def, hl, Option.some.injEq] at hx
    subst hx
    exact hbt
  · rw [List.head?_append_of_ne_nil _ hcne]
    exact hh
  · rw [List.getLast?_concat]
  · rw [hP, chainPairs_append_single c b t hl]
    exact Multiset.coe_add _ _

/-- A tiling's span is ordered. -/
theorem tilesFromTo_le (P : Multiset (ℚ × ℚ)) (a b : ℚ)
    (h : tilesFromTo P a b) : a ≤ b := by
  obtain ⟨c, hch, hh, hl, _⟩ := h
  exact chain_head_le_last c a b hch hh hl

/-- Invariant-carrying form of C3 over the interval-extraction loop: from a
state whose emitted intervals tile `[t0, last_time_active]`, with the
remaining event times strictly increasing inside `(last_time_active, tmax)`
and the focal node's component larger than a singleton before and after
every remaining event, the final emitted intervals tile `[t0, tmax]`. -/
theorem soc_loop_tiles (N node : ℕ) (t0 tmax : ℚ) :
    ∀ (events : List (ℚ × List (ℕ × ℕ) × List (ℕ × ℕ)))
      (G : List (Finset ℕ)) (comp : Finset ℕ) (last : ℚ)
      (m : List (ℕ × ℕ)) (traj : List SocialTrajectoryEntry),
      events ≠ [] →
      m.length = traj.length →
      (∀ e ∈ m, e.2 < m.length) →
      tilesFromTo (↑(pairsOf traj)) t0 last →
      (∀ p ∈ events, last < p.1 ∧ p.1 < tmax) →
      (events.map (fun p => p.1)).Chain' (· < ·) →
      1 < comp.card →
      (∀ c ∈ compsAlong node G events, 1 < c.card) →
      tilesFromTo (↑(pairsOf (soc_loop N node t0 tmax events G comp last m traj)))
        t0 tmax := by
  intro events
  induction events with
  | nil => intro G comp last m traj hne; exact absurd rfl hne
  | cons ev rest ih =>
    obtain ⟨t, ein, eout⟩ := ev
    intro G comp last m traj _ hsync hvals htiles hbnd hchain hbig hcomps
    rw [compsAlong] at hcomps
    set Gp := applyEvSoc G ein eout with hGp
    set ncomp := componentOfNode node Gp with hncomp
    have hnc : 1 < ncomp.card := hcomps ncomp (List.mem_cons_self _ _)
    have hrestc : ∀ c ∈ compsAlong node Gp rest, 1 < c.card := fun c hc =>
      hcomps c (List.mem_cons_of_mem _ hc)
    have hbt : last < t ∧ t < tmax := hbnd (t, ein, eout) (List.mem_cons_self _ _)
    have ht0t : t0 < t := lt_of_le_of_lt (tilesFromTo_le _ _ _ htiles) hbt.1
    have hpw : ∀ p ∈ rest, t < p.1 := by
      intro p hp
      have := List.chain'_iff_pairwise.mp hchain
      rw [List.map_cons, List.pairwise_cons] at this
      exact this.1 p.1 (List.mem_map_of_mem _ hp)
    have hrestbnd : ∀ hl : ℚ, hl ≤ t → ∀ p ∈ rest, hl < p.1 ∧ p.1 < tmax := by
      intro hl hle p hp
      exact ⟨lt_of_le_of_lt hle (hpw p hp), (hbnd p (List.mem_cons_of_mem _ hp)).2⟩
    have hrestchain : (rest.map (fun p => p.1)).Chain' (· < ·) := by
      have := hchain
      rw [List.map_cons] at this
      exact this.tail
    show tilesFromTo (↑(pairsOf (soc_loop N node t0 tmax ((t, ein, eout) :: rest)
      G comp last m traj))) t0 tmax
    rw [soc_loop]
    by_cases hch : comp = componentOfNode node (applyEvSoc G ein eout)
    · have hcond : ¬ (1 < comp.card ∧
          comp ≠ componentOfNode node (applyEvSoc G ein eout) ∧ t0 < t) := by
        rintro ⟨_, hne, _⟩
        exact hne hch
      rw [if_neg hcond, if_neg (not_not.mpr hch)]
      cases rest with
      | nil =>
        rw [if_pos (show ([] : List (ℚ × List (ℕ × ℕ) × List (ℕ × ℕ))).isEmpty =
          true from rfl), if_pos hnc]
        have hspec := emitPair_spec N (componentOfNode node (applyEvSoc G ein eout))
          (last, tmax) m traj hsync hvals
        rw [hspec.1]
        exact tiles_extend _ t0 last tmax htiles (hbt.1.trans hbt.2)
      | cons r2 rs =>
        rw [if_neg (show ¬ ((r2 :: rs).isEmpty = true) by simp)]
        exact ih Gp ncomp last m traj (by simp) hsync hvals htiles
          (hrestbnd last hbt.1.le) hrestchain hnc hrestc
    · have hcond : 1 < comp.card ∧
          comp ≠ componentOfNode node (applyEvSoc G ein eout) ∧ t0 < t :=
        ⟨hbig, hch, ht0t⟩
      rw [if_pos hcond, if_pos hch]
      have hspec := emitPair_spec N comp (last, t) m traj hsync hvals
      have htiles1 : tilesFromTo
          (↑(pairsOf (emitPair N comp (last, t) m traj).2)) t0 t := by
        rw [hspec.1]
        exact tiles_extend _ t0 last t htiles hbt.1
      cases rest with
      | nil =>
        rw [if_pos (show ([] : List (ℚ × List (ℕ × ℕ) × List (ℕ × ℕ))).isEmpty =
          true from rfl), if_pos hnc]
        have hspec2 := emitPair_spec N (componentOfNode node (applyEvSoc G ein eout))
          (t, tmax) (emitPair N comp (last, t) m traj).1
          (emitPair N comp (last, t) m traj).2 hspec.2.1 hspec.2.2
        rw [hspec2.1]
        exact tiles_extend _ t0 t tmax htiles1 hbt.2
      | cons r2 rs =>
        rw [if_neg (show ¬ ((r2 :: rs).isEmpty = true) by simp)]
        exact ih Gp ncomp t (emitPair N comp (last, t) m traj).1
          (emitPair N comp (last, t) m traj).2 (by simp) hspec.2.1 hspec.2.2
          htiles1 (hrestbnd t le_rfl) hrestchain hnc hrestc

/-- C3: for any well-formed edge-diff stream (at least one event, aligned
diff arrays, strictly increasing event times inside `(t0, tmax)`) whose
focal node sits in a component of size above one initially and after every
event, the intervals emitted by interval-mode trajectory extraction, taken
across all labels, exactly tile `[t0, tmax]`: they are the consecutive
pairs of a strictly increasing cut list from `t0` to `tmax` — no gaps, no
overlaps. -/
theorem social_trajectory_intervals_tile (ec : EdgeChangesRec) (node : ℕ)
    (traj : List SocialTrajectoryEntry)
    (hne : ec.t ≠ [])
    (hlin : ec.edges_in.length = ec.t.length)
    (hlout : ec.edges_out.length = ec.t.length)
    (hchain : ec.t.Chain' (· < ·))
    (hrange : ∀ x ∈ ec.t, ec.t0 < x ∧ x < ec.tmax)
    (hbig0 : 1 < (componentOfNode node (graphFromEdgelist ec.N ec.edges_initial)).card)
    (hbig : ∀ c ∈ compsAlong node (graphFromEdgelist ec.N ec.edges_initial)
        (ec.t.zip (ec.edges_in.zip ec.edges_out)), 1 < c.card)
    (hres : social_trajectory_from_edge_changes ec node = .ok traj) :
    tilesFromTo (↑(pairsOf traj)) ec.t0 ec.tmax := by
  rw [social_trajectory_from_edge_changes] at hres
  have hzlen : (ec.t.zip (ec.edges_in.zip ec.edges_out)).length = ec.t.length := by
    simp [List.length_zip, hlin, hlout]
  have hzne : ec.t.zip (ec.edges_in.zip ec.edges_out) ≠ [] := by
    intro h
    apply hne
    rw [← List.length_eq_zero, ← hzlen, h]
    rfl
  have hmain := soc_loop_tiles ec.N node ec.t0 ec.tmax
    (ec.t.zip (ec.edges_in.zip ec.edges_out))
    (graphFromEdgelist ec.N ec.edges_initial)
    (componentOfNode node (graphFromEdgelist ec.N ec.edges_initial))
    ec.t0 [] [] hzne rfl (by intro e he; cases he)
    (by
      show tilesFromTo (↑(pairsOf [])) ec.t0 ec.t0
      exact tiles_single ec.t0)
    (by
      intro p hp
      exact hrange p.1 (List.of_mem_zip hp).1)
    (by
      have hmap : (ec.t.zip (ec.edges_in.zip ec.edges_out)).map
          (fun p => p.1) = ec.t := by
        rw [show (fun p : ℚ × List (ℕ × ℕ) × List (ℕ × ℕ) => p.1) =
          Prod.fst from rfl]
        exact List.map_fst_zip _ _ (by rw [List.length_zip, hlin, hlout]; omega)
      rw [hmap]
      exact hchain)
    hbig0 hbig
  cases hlast : ec.t.getLast? with
  | none => exact absurd (List.getLast?_eq_none_iff.mp hlast) hne
  | some tl =>
    rw [hlast] at hres
    have htlmem : tl ∈ ec.t := by
      obtain ⟨hne', heq⟩ := List.mem_getLast?_eq_getLast (l := ec.t) (x := tl)
        (by rw [hlast]; rfl)
      exact heq ▸ List.getLast_mem hne'
    have htl : ¬ ec.tmax < tl := not_lt.mpr (hrange tl htlmem).2.le
    simp only [if_neg htl, Except.ok.injEq] at hres
    exact hres ▸ hmain

/-- C3 witness: the specification's example — `N = 4`, initial edges
`{(0,1),(2,3)}`, one event at `t = 1` adding `(1,2)`, focal node `0` —
instantiates `social_trajectory_intervals_tile`, and the extractor emits
exactly the interval `(t0, 1)` for the label of `{0,1}` followed by
`(1, tmax)` for the label of `{0,1,2,3}`. -/
theorem social_trajectory_intervals_tile_witness :
    tilesFromTo (↑(pairsOf trajC3)) 0 2 ∧
      social_trajectory_from_edge_changes ec3ex 0 = .ok trajC3 := by
  refine ⟨social_trajectory_intervals_tile ec3ex 0 trajC3
    (by with_unfolding_all decide) (by with_unfolding_all decide)
    (by with_unfolding_all decide) ?_ ?_
    (by with_unfolding_all decide) (by with_unfolding_all decide)
    (by with_unfolding_all rfl), by with_unfolding_all rfl⟩
  · show List.Chain' (· < ·) [(1 : ℚ)]
    exact List.chain'_singleton _
  · intro x hx
    rw [show ec3ex.t = [(1 : ℚ)] from rfl, List.mem_singleton] at hx
    subst hx
    norm_num [ec3ex]

end Tacoma
